import Mathlib

/-!
# Verification of `ast_decompiler` (decompiler.py)

A shallow embedding of the core of `ast_decompiler/decompiler.py`: the
`Decompiler` visitor class and the module-level `decompile` entry point.

Modelling choices, all documented at the definition they concern:

* A representative closed subset of the Python 2 AST node kinds handled by
  the source is embedded as the inductive type `Node`; it covers modules,
  function and class definitions, imports, and the expression kinds the
  precedence/parenthesization logic of the source discriminates on.  The
  synthetic wrapper classes of the source (`KeyValuePair` is not needed by
  any claim; `StarArg`, `DoubleStarArg`, `KeywordArg` and the `_CallArgs`
  stack sentinel are) appear as constructors, as does an `unknown` kind
  standing for any node type for which `getattr(self, 'visit_...')` finds
  no method, so that `generic_visit`'s `NotImplementedError` is reachable.

* The mutable `Decompiler` object becomes the record `DState`, threaded
  explicitly; exceptions become `Except Err`.  Recursion is made structural
  with a fuel parameter (`Err.fuel` signals exhaustion; the source has no
  such case, it simply recurses).  All functions compute by kernel
  reduction, so concrete runs are checked with `rfl`/`decide`.

* `DState` carries two ghost fields (`ghost_depth`, `ghost_trace`) that do
  not exist in the source: they instrument `visit` so that the ancestry
  stack length can be compared with the recursion depth of `visit` calls at
  every visit entry (claim about the stack/depth invariant).  No rendering
  decision reads them.

* Python's `==` between AST nodes (used by `visit_BinOp` and `visit_IfExp`
  on `parent_node.left` / `.right` / `.test` / `.body`) is object identity;
  on parser-produced trees, which share no subobjects, identity of the
  visited child with a parent field coincides with structural equality
  except when two sibling fields hold structurally equal subtrees.  It is
  modelled by structural equality `Node.beq`; theorems that depend on the
  distinction carry an explicit disequality hypothesis.

* The operator leaves (`ast.Add`, ...) are enumerations; the source's
  `self.visit(node.op)`, which dispatches to a generated one-line writer,
  is modelled as directly writing `_OP_TO_STR[type(op)]`.
-/

namespace AstDecompiler

/-- Binary operator leaves of `_OP_TO_STR` / `_PRECEDENCE` (decompiler.py 9-38). -/
inductive BinOpKind where
  | Add | Sub | Mult | Div | Mod | Pow | LShift | RShift
  | BitOr | BitXor | BitAnd | FloorDiv
deriving DecidableEq, Repr

/-- Unary operator leaves. -/
inductive UnaryOpKind where
  | Invert | Not | UAdd | USub
deriving DecidableEq, Repr

/-- Comparison operator leaves. -/
inductive CmpOpKind where
  | Eq | NotEq | Lt | LtE | Gt | GtE | Is | IsNot | In | NotIn
deriving DecidableEq, Repr

/-- Boolean operator leaves. -/
inductive BoolOpKind where
  | And | Or
deriving DecidableEq, Repr

/-- The embedded AST node kinds: a closed subset of the Python 2 `ast`
nodes the source handles, plus the source's own synthetic wrapper classes
(`StarArg`, `DoubleStarArg`, `KeywordArg`, the `_CallArgs` precedence
sentinel) and `unknown`, standing for any node type without a
`visit_<Kind>` method.  Field names and shapes follow the `ast` module:
e.g. `Str` holds the literal value and whether its Python 2 runtime type is
`str` (the native string type) as opposed to `unicode`. -/
inductive Node where
  | Module (body : List Node)
  | Expr (value : Node)
  | FunctionDef (name : String) (decorator_list : List Node) (args : Node)
      (body : List Node)
  | ClassDef (name : String) (decorator_list : List Node) (bases : List Node)
      (body : List Node)
  | Pass
  | ImportFrom (module : String) (names : List Node) (level : Nat)
  | alias (name : String) (asname : Option String)
  | Name (id : String)
  | Num (n : Int)
  | Str (isStr : Bool) (s : String)
  | BinOp (left : Node) (op : BinOpKind) (right : Node)
  | UnaryOp (op : UnaryOpKind) (operand : Node)
  | BoolOp (op : BoolOpKind) (values : List Node)
  | Compare (left : Node) (ops : List CmpOpKind) (comparators : List Node)
  | Call (func : Node) (args : List Node) (keywords : List Node)
      (starargs : Option Node) (kwargs : Option Node)
  | keyword (arg : String) (value : Node)
  | Attribute (value : Node) (attr : String)
  | Subscript (value : Node) (slice : Node)
  | Index (value : Node)
  | Lambda (args : Node) (body : Node)
  | IfExp (test : Node) (body : Node) (orelse : Node)
  | arguments (args : List Node) (defaults : List Node)
      (vararg : Option String) (kwarg : Option String)
  | KeywordArg (arg : Node) (value : Node)
  | StarArg (arg : Node)
  | DoubleStarArg (arg : Node)
  | callArgs
  | unknown (desc : String)
deriving Repr

/-- Structural equality on nodes; models Python's `==` (object identity on
`ast` nodes) for the identity tests of `visit_BinOp` / `visit_IfExp`, exact
on trees without structurally equal sibling operands. -/
def Node.beq : Node → Node → Bool
  | .Module b, .Module b' => go b b'
  | .Expr v, .Expr v' => Node.beq v v'
  | .FunctionDef n d a b, .FunctionDef n' d' a' b' =>
      n == n' && go d d' && Node.beq a a' && go b b'
  | .ClassDef n d ba b, .ClassDef n' d' ba' b' =>
      n == n' && go d d' && go ba ba' && go b b'
  | .Pass, .Pass => true
  | .ImportFrom m ns l, .ImportFrom m' ns' l' => m == m' && go ns ns' && l == l'
  | .alias n a, .alias n' a' => n == n' && a == a'
  | .Name i, .Name i' => i == i'
  | .Num n, .Num n' => n == n'
  | .Str k v, .Str k' v' => k == k' && v == v'
  | .BinOp l o r, .BinOp l' o' r' => Node.beq l l' && o == o' && Node.beq r r'
  | .UnaryOp o v, .UnaryOp o' v' => o == o' && Node.beq v v'
  | .BoolOp o vs, .BoolOp o' vs' => o == o' && go vs vs'
  | .Compare l os cs, .Compare l' os' cs' => Node.beq l l' && os == os' && go cs cs'
  | .Call f a k st kw, .Call f' a' k' st' kw' =>
      Node.beq f f' && go a a' && go k k' && ob st st' && ob kw kw'
  | .keyword a v, .keyword a' v' => a == a' && Node.beq v v'
  | .Attribute v a, .Attribute v' a' => Node.beq v v' && a == a'
  | .Subscript v sl, .Subscript v' sl' => Node.beq v v' && Node.beq sl sl'
  | .Index v, .Index v' => Node.beq v v'
  | .Lambda a b, .Lambda a' b' => Node.beq a a' && Node.beq b b'
  | .IfExp t b o, .IfExp t' b' o' => Node.beq t t' && Node.beq b b' && Node.beq o o'
  | .arguments a d v k, .arguments a' d' v' k' =>
      go a a' && go d d' && v == v' && k == k'
  | .KeywordArg a v, .KeywordArg a' v' => Node.beq a a' && Node.beq v v'
  | .StarArg a, .StarArg a' => Node.beq a a'
  | .DoubleStarArg a, .DoubleStarArg a' => Node.beq a a'
  | .callArgs, .callArgs => true
  | .unknown d, .unknown d' => d == d'
  | _, _ => false
where
  go : List Node → List Node → Bool
    | [], [] => true
    | x :: xs, y :: ys => Node.beq x y && go xs ys
    | _, _ => false
  ob : Option Node → Option Node → Bool
    | none, none => true
    | some x, some y => Node.beq x y
    | _, _ => false

/-- `_OP_TO_STR` for binary operators (decompiler.py 9-38). -/
def binOpToStr : BinOpKind → String
  | .Add => "+" | .Sub => "-" | .Mult => "*" | .Div => "/" | .Mod => "%"
  | .Pow => "**" | .LShift => "<<" | .RShift => ">>" | .BitOr => "|"
  | .BitXor => "^" | .BitAnd => "&" | .FloorDiv => "//"

/-- `_OP_TO_STR` for unary operators. -/
def unaryOpToStr : UnaryOpKind → String
  | .Invert => "~" | .Not => "not " | .UAdd => "+" | .USub => "-"

/-- `_OP_TO_STR` for comparison operators. -/
def cmpOpToStr : CmpOpKind → String
  | .Eq => "==" | .NotEq => "!=" | .Lt => "<" | .LtE => "<=" | .Gt => ">"
  | .GtE => ">=" | .Is => "is" | .IsNot => "is not" | .In => "in"
  | .NotIn => "not in"

/-- `_PRECEDENCE` entries for binary operator types (decompiler.py 48-72). -/
def binOpPrec : BinOpKind → Int
  | .BitOr => 4 | .BitXor => 5 | .BitAnd => 6 | .LShift => 7 | .RShift => 7
  | .Add => 8 | .Sub => 8 | .Mult => 9 | .Div => 9 | .FloorDiv => 9
  | .Mod => 9 | .Pow => 11

/-- `_PRECEDENCE` entries for unary operator types. -/
def unaryOpPrec : UnaryOpKind → Int
  | .Not => 2 | .UAdd => 10 | .USub => 10 | .Invert => 10

/-- `_PRECEDENCE` entries for boolean operator types. -/
def boolOpPrec : BoolOpKind → Int
  | .Or => 0 | .And => 1

/-- `Decompiler.precedence_of_node` (decompiler.py 107-110): `BinOp`,
`UnaryOp` and `BoolOp` take the precedence of their operator; otherwise
`_PRECEDENCE.get(type(node), -1)` — `Compare` 3, `Subscript`/`Call`/
`Attribute` 12, the `_CallArgs` sentinel -1 (its table entry), everything
else (including a `None` parent) -1. -/
def precedence_of_node : Option Node → Int
  | none => -1
  | some (.BinOp _ op _) => binOpPrec op
  | some (.UnaryOp op _) => unaryOpPrec op
  | some (.BoolOp op _) => boolOpPrec op
  | some (.Compare _ _ _) => 3
  | some (.Subscript _ _) => 12
  | some (.Call _ _ _ _ _) => 12
  | some (.Attribute _ _) => 12
  | some .callArgs => -1
  | some _ => -1

/-- Errors: `unsupported` models the `NotImplementedError` raised by
`generic_visit` (decompiler.py 200-201); `fuel` is the embedding's
artificial recursion bound, no counterpart in the source. -/
inductive Err where
  | fuel
  | unsupported (msg : String)
deriving DecidableEq, Repr

/-- The two configuration arguments of `Decompiler.__init__`
(decompiler.py 90-98). -/
structure Config where
  indentation : Nat
  max_line_length : Nat
deriving DecidableEq, Repr

/-- The mutable state of a `Decompiler` instance (decompiler.py 90-98):
completed lines, the in-progress line as a list of written tokens, the
current indentation depth, the ancestry stack, and the
`has_unicode_literals` flag.  `ghost_depth` / `ghost_trace` are ghost
instrumentation (see the file comment): at every `visit` entry the trace
records (ancestry stack length, number of `_CallArgs` sentinels on the
stack, recursion depth of open `visit` calls). -/
structure DState where
  lines : List String
  current_line : List String
  current_indentation : Nat
  node_stack : List Node
  has_unicode_literals : Bool
  ghost_depth : Nat
  ghost_trace : List (Nat × Nat × Nat)
deriving Repr

/-- The state `Decompiler.__init__` builds: every field empty/zero/false. -/
def initState : DState :=
  { lines := [], current_line := [], current_indentation := 0,
    node_stack := [], has_unicode_literals := false,
    ghost_depth := 0, ghost_trace := [] }

/-- `''.join` on a token list. -/
def joinStr (l : List String) : String := l.foldr (fun a b => a ++ b) ""

/-- `' ' * n`. -/
def spaces (n : Nat) : String := String.mk (List.replicate n ' ')

/-- `Decompiler.write` (decompiler.py 118-120): append one token to the
in-progress line (the `basestring` assertion is type-level here). -/
def write (code : String) (s : DState) : DState :=
  { s with current_line := s.current_line ++ [code] }

/-- `Decompiler.write_indentation` (decompiler.py 122-123). -/
def write_indentation (s : DState) : DState :=
  write (spaces s.current_indentation) s

/-- `Decompiler.write_newline` (decompiler.py 125-128): close the
in-progress line and append it, newline-terminated, to `lines`. -/
def write_newline (s : DState) : DState :=
  { s with lines := s.lines ++ [joinStr s.current_line ++ "\n"],
           current_line := [] }

/-- `Decompiler.current_line_length` (decompiler.py 130-131). -/
def current_line_length (s : DState) : Nat :=
  (s.current_line.map String.length).sum

/-- `Decompiler.get_parent_node` (decompiler.py 112-116):
`node_stack[-2]`, or `None` when the stack is shorter than 2. -/
def get_parent_node (s : DState) : Option Node :=
  match s.node_stack.reverse with
  | _ :: parent :: _ => some parent
  | _ => none

/-- Whether a stack entry is the `_CallArgs` sentinel of `visit_Call`. -/
def isCallArgsNode : Node → Bool :=
  fun n => match n with | .callArgs => true | _ => false

/-- Number of `_CallArgs` sentinels on a stack (ghost bookkeeping only). -/
def countCallArgs (stack : List Node) : Nat :=
  stack.countP isCallArgsNode

/-- The push half of `Decompiler.visit` (decompiler.py 100-105), plus the
ghost trace record at visit entry. -/
def pushVisit (n : Node) (s : DState) : DState :=
  let stack := s.node_stack ++ [n]
  { s with node_stack := stack, ghost_depth := s.ghost_depth + 1,
           ghost_trace := s.ghost_trace ++
             [(stack.length, countCallArgs stack, s.ghost_depth + 1)] }

/-- The `finally: self.node_stack.pop()` half of `Decompiler.visit`. -/
def popVisit (s : DState) : DState :=
  { s with node_stack := s.node_stack.dropLast,
           ghost_depth := s.ghost_depth - 1 }

/-- `self.node_stack.append(_CallArgs())` in `visit_Call`
(decompiler.py 592): a bare stack push, not a `visit`, so no ghost
depth/trace update. -/
def pushCallArgs (s : DState) : DState :=
  { s with node_stack := s.node_stack ++ [.callArgs] }

/-- The matching `finally: self.node_stack.pop()` of `visit_Call`. -/
def popCallArgs (s : DState) : DState :=
  { s with node_stack := s.node_stack.dropLast }

/-- Error propagation: Python exception flow for a statement sequence. -/
def eseq (x : Except Err DState) (g : DState → Except Err DState) :
    Except Err DState :=
  match x with
  | .error e => .error e
  | .ok s => g s

/-- Map a pure state update over a fallible result. -/
def emap (x : Except Err DState) (g : DState → DState) : Except Err DState :=
  match x with
  | .error e => .error e
  | .ok s => .ok (g s)

/-- `str.rstrip()` on the separator (decompiler.py 161), for separators of
printable tokens and trailing blanks. -/
def rstrip (s : String) : String :=
  String.mk (s.data.reverse.dropWhile (fun c => c.isWhitespace)).reverse

/-- `repr` of a Python 2 `int` (`visit_Num`): decimal, `-` sign. -/
def reprInt (n : Int) : String := toString n

/-- A character's rendering inside a Python 2 string repr (modelled for
the printable-ASCII literals used here; claims do not depend on the escape
table beyond quote/backslash/newline). -/
def reprChar (c : Char) : String :=
  if c = '\\' then "\\\\"
  else if c = '\'' then "\\'"
  else if c = '\n' then "\\n"
  else String.mk [c]

/-- `repr` of a Python 2 string value (`visit_Str`): `'...'` for `str`
values, `u'...'` for `unicode` values. -/
def reprStrLit (isStr : Bool) (v : String) : String :=
  (if isStr then "'" else "u'") ++
    (v.data.map reprChar).foldr (fun a b => a ++ b) "" ++ "'"

/-- `'.' * level` in `visit_ImportFrom` (decompiler.py 415). -/
def dots (level : Nat) : String := String.mk (List.replicate level '.')

/-- `any(alias.name == 'unicode_literals' for alias in node.names)`
(decompiler.py 410). -/
def isUnicodeLiteralsAlias (n : Node) : Bool :=
  match n with
  | .alias name _ => name == "unicode_literals"
  | _ => false

/-- The `should_parenthesize` computation of `visit_BinOp`
(decompiler.py 473-485): parenthesize on strictly lower precedence than the
parent; at equal precedence, a `Pow` node is parenthesized exactly when it
is the parent's left operand, any other operator exactly when it is the
parent's right operand (`node == parent_node.left` / `.right`; an
equal-precedence parent of a `BinOp` is always itself a `BinOp`, see
`binOpPrec`). -/
def binOpShouldParenthesize (node : Node) (parent : Option Node) : Bool :=
  let my_prec := precedence_of_node (some node)
  let parent_prec := precedence_of_node parent
  if my_prec < parent_prec then true
  else if my_prec = parent_prec then
    match node, parent with
    | .BinOp _ .Pow _, some (.BinOp pleft _ _) => Node.beq node pleft
    | .BinOp _ _ _, some (.BinOp _ _ pright) => Node.beq node pright
    | _, _ => false
  else false

/-- The parent-kind test of `visit_Lambda` (decompiler.py 502-505):
`isinstance(parent, (BinOp, UnaryOp, Compare, IfExp, Attribute, Subscript,
Call))`. -/
def lambdaShouldParenthesize (parent : Option Node) : Bool :=
  match parent with
  | some (.BinOp _ _ _) => true
  | some (.UnaryOp _ _) => true
  | some (.Compare _ _ _) => true
  | some (.IfExp _ _ _) => true
  | some (.Attribute _ _) => true
  | some (.Subscript _ _) => true
  | some (.Call _ _ _ _ _) => true
  | _ => false

/-- The `should_parenthesize` computation of `visit_IfExp`
(decompiler.py 514-524): parent of the listed kinds, or an `IfExp` parent
of which this node is the `test` or the `body`. -/
def ifExpShouldParenthesize (node : Node) (parent : Option Node) : Bool :=
  match parent with
  | some (.BinOp _ _ _) => true
  | some (.UnaryOp _ _) => true
  | some (.Compare _ _ _) => true
  | some (.Attribute _ _) => true
  | some (.Subscript _ _) => true
  | some (.Call _ _ _ _ _) => true
  | some (.IfExp ptest pbody _) => Node.beq node ptest || Node.beq node pbody
  | _ => false

/-- `node.args.args or node.args.vararg or node.args.kwarg` in
`visit_Lambda` (decompiler.py 508). -/
def lambdaArgsNonEmpty (args : Node) : Bool :=
  match args with
  | .arguments a _ va kw => !a.isEmpty || va.isSome || kw.isSome
  | _ => false

/-- `isinstance(self.get_parent_node(), ast.Lambda)` in `visit_arguments`
(decompiler.py 740). -/
def parentIsLambda (parent : Option Node) : Bool :=
  match parent with
  | some (.Lambda _ _) => true
  | _ => false

/-- The argument list `visit_arguments` builds (decompiler.py 722-736):
positional arguments without defaults, then `KeywordArg` wrappers pairing
the trailing arguments with `defaults`, then `StarArg`/`DoubleStarArg`
wrappers around fresh `Name` nodes for `vararg`/`kwarg`. -/
def argumentsList (args defaults : List Node) (vararg kwarg : Option String) :
    List Node :=
  let num_defaults := defaults.length
  let plain := if num_defaults ≠ 0 then args.take (args.length - num_defaults)
               else args
  let default_args := (args.drop (args.length - num_defaults)).zip defaults
  plain ++ default_args.map (fun p => Node.KeywordArg p.1 p.2) ++
    (match vararg with | some va => [Node.StarArg (Node.Name va)] | none => []) ++
    (match kwarg with | some kw => [Node.DoubleStarArg (Node.Name kw)] | none => [])

/-- The entry half of the `add_indentation` context manager
(decompiler.py 183-189). -/
def add_indentation (cfg : Config) (s : DState) : DState :=
  { s with current_indentation := s.current_indentation + cfg.indentation }

/-- The exit half of the `add_indentation` context manager. -/
def sub_indentation (cfg : Config) (s : DState) : DState :=
  { s with current_indentation := s.current_indentation - cfg.indentation }

/-- The rollback of `write_expression_list` (decompiler.py 157-159):
`del self.lines[last_line:]` and restoration of the checkpointed copy of
`current_line`. -/
def rollbackState (last_line : Nat) (saved : List String) (s : DState) : DState :=
  { s with lines := s.lines.take last_line, current_line := saved }

/-- The argument list `visit_Call` builds (decompiler.py 594-598):
`node.args + node.keywords`, then `StarArg(node.starargs)` and
`DoubleStarArg(node.kwargs)` when present. -/
def callArgsList (args keywords : List Node) (starargs kwargs : Option Node) :
    List Node :=
  args ++ keywords ++
    (match starargs with | some sa => [Node.StarArg sa] | none => []) ++
    (match kwargs with | some kw => [Node.DoubleStarArg kw] | none => [])

mutual

/-- `Decompiler.visit` (decompiler.py 100-105) together with the dispatch
`NodeVisitor.visit` performs: push the node, run the `visit_<Kind>` method
(the cases of the match, each a direct transcription of the corresponding
method of decompiler.py), pop the node.  Node kinds without a method
(`unknown`, the `_CallArgs` sentinel) reach `generic_visit`
(decompiler.py 200-201), which raises.  The first argument is fuel,
consumed once per call; `Err.fuel` has no source counterpart. -/
def visitF (cfg : Config) : Nat → Node → DState → Except Err DState
  | 0, _, _ => .error .fuel
  | f+1, node, s₀ =>
    let s := pushVisit node s₀
    emap
      (match node with
       | .Module body => visitSeqF cfg f body s
       | .Expr v =>
           emap (visitF cfg f v (write_indentation s)) write_newline
       | .FunctionDef name decorator_list args body =>
           let s := write_newline s
           eseq (decoratorLoopF cfg f decorator_list s) (fun s =>
             let s := write ("def " ++ name ++ "(") (write_indentation s)
             eseq (visitF cfg f args s) (fun s =>
               let s := write_newline (write "):" s)
               writeSuiteF cfg f body s))
       | .ClassDef name decorator_list bases body =>
           let s := write_newline (write_newline s)
           eseq (decoratorLoopF cfg f decorator_list s) (fun s =>
             let s := write ("class " ++ name ++ "(") (write_indentation s)
             eseq (writeExpressionListF cfg f bases ", " true false true s)
               (fun s =>
                 let s := write_newline (write "):" s)
                 writeSuiteF cfg f body s))
       | .Pass => .ok (write_newline (write "pass" (write_indentation s)))
       | .ImportFrom module names level =>
           let s := if module == "__future__" && names.any isUnicodeLiteralsAlias
                    then { s with has_unicode_literals := true } else s
           let s := write ("from " ++ dots level) (write_indentation s)
           let s := if module ≠ "" then write module s else s
           let s := write " import " s
           emap (writeExpressionListF cfg f names ", " true true true s)
             write_newline
       | .alias name asname =>
           let s := write name s
           .ok (match asname with
                | some an => write (" as " ++ an) s
                | none => s)
       | .Name id => .ok (write id s)
       | .Num n => .ok (write (reprInt n) s)
       | .Str isStr v =>
           let s := if s.has_unicode_literals && isStr then write "b" s else s
           .ok (write (reprStrLit isStr v) s)
       | .BinOp left op right =>
           let sp := binOpShouldParenthesize (.BinOp left op right)
                       (get_parent_node s)
           let s := if sp then write "(" s else s
           eseq (visitF cfg f left s) (fun s =>
             let s := write " " (s)
             let s := write (binOpToStr op) s
             let s := write " " (s)
             eseq (visitF cfg f right s) (fun s =>
               .ok (if sp then write ")" s else s)))
       | .UnaryOp op operand =>
           let sp := decide (precedence_of_node (some (.UnaryOp op operand)) <
                             precedence_of_node (get_parent_node s))
           let s := if sp then write "(" s else s
           let s := write (unaryOpToStr op) s
           eseq (visitF cfg f operand s) (fun s =>
             .ok (if sp then write ")" s else s))
       | .BoolOp op values =>
           let sp := decide (precedence_of_node (some (.BoolOp op values)) ≤
                             precedence_of_node (get_parent_node s))
           let s := if sp then write "(" s else s
           let opStr := match op with | .And => "and" | .Or => "or"
           emap
             (writeExpressionListF cfg f values (" " ++ opStr ++ " ")
               true true false s)
             (fun s => if sp then write ")" s else s)
       | .Compare left ops comparators =>
           let sp := decide (precedence_of_node (some (.Compare left ops comparators)) ≤
                             precedence_of_node (get_parent_node s))
           let s := if sp then write "(" s else s
           eseq (visitF cfg f left s) (fun s =>
             emap (compareTailF cfg f (ops.zip comparators) s)
               (fun s => if sp then write ")" s else s))
       | .Call func args keywords starargs kwargs =>
           eseq (visitF cfg f func s) (fun s =>
             let s := pushCallArgs (write "(" s)
             let argList := callArgsList args keywords starargs kwargs
             emap
               (if argList.isEmpty then .ok s
                else writeExpressionListF cfg f argList ", " true false false s)
               (fun s => popCallArgs (write ")" s)))
       | .keyword arg value => visitF cfg f value (write (arg ++ "=") s)
       | .Attribute value attr =>
           emap (visitF cfg f value s) (write ("." ++ attr))
       | .Subscript value slice =>
           eseq (visitF cfg f value s) (fun s =>
             emap (visitF cfg f slice (write "[" s)) (write "]"))
       | .Index v => visitF cfg f v s
       | .Lambda args body =>
           let sp := lambdaShouldParenthesize (get_parent_node s)
           let s := if sp then write "(" s else s
           let s := write "lambda" s
           let s := if lambdaArgsNonEmpty args then write " " (s) else s
           eseq (visitF cfg f args s) (fun s =>
             eseq (visitF cfg f body (write ": " s)) (fun s =>
               .ok (if sp then write ")" s else s)))
       | .IfExp test body orelse =>
           let sp := ifExpShouldParenthesize (.IfExp test body orelse)
                       (get_parent_node s)
           let s := if sp then write "(" s else s
           eseq (visitF cfg f body s) (fun s =>
             eseq (visitF cfg f test (write " if " s)) (fun s =>
               eseq (visitF cfg f orelse (write " else " s)) (fun s =>
                 .ok (if sp then write ")" s else s))))
       | .arguments args defaults vararg kwarg =>
           let argList := argumentsList args defaults vararg kwarg
           if argList.isEmpty then .ok s
           else
             let an := !parentIsLambda (get_parent_node s)
             writeExpressionListF cfg f argList ", " an false false s
       | .KeywordArg arg value =>
           eseq (visitF cfg f arg s) (fun s =>
             visitF cfg f value (write "=" s))
       | .StarArg arg => visitF cfg f arg (write "*" s)
       | .DoubleStarArg arg => visitF cfg f arg (write "**" s)
       | .callArgs => .error (.unsupported "missing visit method for _CallArgs")
       | .unknown desc => .error (.unsupported ("missing visit method for " ++ desc)))
      popVisit

/-- The statement loops `for line in node.body: self.visit(line)`
(`visit_Module`, and the body of `write_suite`). -/
def visitSeqF (cfg : Config) : Nat → List Node → DState → Except Err DState
  | 0, _, _ => .error .fuel
  | _+1, [], s => .ok s
  | f+1, n :: rest, s => eseq (visitF cfg f n s) (visitSeqF cfg f rest)

/-- The decorator loop of `visit_FunctionDef` / `visit_ClassDef`
(decompiler.py 216-220 / 233-237). -/
def decoratorLoopF (cfg : Config) : Nat → List Node → DState → Except Err DState
  | 0, _, _ => .error .fuel
  | _+1, [], s => .ok s
  | f+1, d :: rest, s =>
      eseq (visitF cfg f d (write "@" (write_indentation s))) (fun s =>
        decoratorLoopF cfg f rest (write_newline s))

/-- `Decompiler.write_suite` (decompiler.py 178-181): the body loop under
`add_indentation` (decompiler.py 183-189). -/
def writeSuiteF (cfg : Config) : Nat → List Node → DState → Except Err DState
  | 0, _, _ => .error .fuel
  | f+1, nodes, s =>
      emap (visitSeqF cfg f nodes (add_indentation cfg s)) (sub_indentation cfg)

/-- `Decompiler.write_expression_list` (decompiler.py 133-176): checkpoint
(`last_line`, a copy of `current_line`), inline attempt, and on overflow
rollback (`rollbackState`) followed by the indented multi-line fallback
(`welFallbackF`). -/
def writeExpressionListF (cfg : Config) :
    Nat → List Node → String → Bool → Bool → Bool → DState → Except Err DState
  | 0, _, _, _, _, _, _ => .error .fuel
  | f+1, nodes, separator, allow_newlines, need_parens, final_sep, s =>
    let last_line := s.lines.length
    let saved_line := s.current_line
    match welAttemptF cfg f nodes separator allow_newlines true s with
    | .error e => .error e
    | .ok (false, s₁) => .ok s₁
    | .ok (true, s₁) =>
      welFallbackF cfg f nodes separator need_parens final_sep
        (rollbackState last_line saved_line s₁)

/-- The multi-line fallback block of `write_expression_list`
(decompiler.py 161-176): strip the separator, open the parenthesis when
required, close the line, render every node indented one level deeper
(`welMultiF`), and close at the original indentation. -/
def welFallbackF (cfg : Config) :
    Nat → List Node → String → Bool → Bool → DState → Except Err DState
  | 0, _, _, _, _, _ => .error .fuel
  | f+1, nodes, separator, need_parens, final_sep, s =>
    let separator' := rstrip separator
    let s := if need_parens then write "(" s else s
    let s := add_indentation cfg (write_newline s)
    match welMultiF cfg f nodes separator' final_sep s with
    | .error e => .error e
    | .ok s₁ =>
      let s₂ := write_indentation (sub_indentation cfg s₁)
      .ok (if need_parens then write ")" s₂ else s₂)

/-- The inline attempt of `write_expression_list` (decompiler.py 143-155):
separator-then-visit per node, aborting as soon as, with newlines allowed,
the in-progress line exceeds `max_line_length`.  Returns `true` with the
state at the abort, or `false` with the final state when every node was
written within the limit. -/
def welAttemptF (cfg : Config) :
    Nat → List Node → String → Bool → Bool → DState → Except Err (Bool × DState)
  | 0, _, _, _, _, _ => .error .fuel
  | _+1, [], _, _, _, s => .ok (false, s)
  | f+1, node :: rest, separator, allow_newlines, first, s =>
    let s := if first then s else write separator s
    match visitF cfg f node s with
    | .error e => .error e
    | .ok s₁ =>
      if allow_newlines && decide (cfg.max_line_length < current_line_length s₁)
      then .ok (true, s₁)
      else welAttemptF cfg f rest separator allow_newlines false s₁

/-- The multi-line loop of `write_expression_list` (decompiler.py 165-172):
per node, indentation, the node, the (stripped) separator unless this is
the last node and `final_separator_if_multiline` was false, a newline. -/
def welMultiF (cfg : Config) :
    Nat → List Node → String → Bool → DState → Except Err DState
  | 0, _, _, _, _ => .error .fuel
  | _+1, [], _, _, s => .ok s
  | f+1, node :: rest, separator, final_sep, s =>
    match visitF cfg f node (write_indentation s) with
    | .error e => .error e
    | .ok s₁ =>
      let s₂ := if final_sep || !rest.isEmpty then write separator s₁ else s₁
      welMultiF cfg f rest separator final_sep (write_newline s₂)

/-- The comparator loop of `visit_Compare` (decompiler.py 582-586) over
`zip(node.ops, node.comparators)`. -/
def compareTailF (cfg : Config) :
    Nat → List (CmpOpKind × Node) → DState → Except Err DState
  | 0, _, _ => .error .fuel
  | _+1, [], s => .ok s
  | f+1, (op, expr) :: rest, s =>
      eseq (visitF cfg f expr (write " " (write (cmpOpToStr op) (write " " s))))
        (compareTailF cfg f rest)

end

/-- Structural size of a node, used only to pick a sufficient default fuel
for `decompile`. -/
def sizeT : Node → Nat
  | .Module b => 1 + go b
  | .Expr v => 1 + sizeT v
  | .FunctionDef _ d a b => 1 + go d + sizeT a + go b
  | .ClassDef _ d ba b => 1 + go d + go ba + go b
  | .Pass => 1
  | .ImportFrom _ ns _ => 1 + go ns
  | .alias _ _ => 1
  | .Name _ => 1
  | .Num _ => 1
  | .Str _ _ => 1
  | .BinOp l _ r => 1 + sizeT l + sizeT r
  | .UnaryOp _ v => 1 + sizeT v
  | .BoolOp _ vs => 1 + go vs
  | .Compare l _ cs => 1 + sizeT l + go cs
  | .Call f a k st kw => 1 + sizeT f + go a + go k + ko st + ko kw
  | .keyword _ v => 1 + sizeT v
  | .Attribute v _ => 1 + sizeT v
  | .Subscript v sl => 1 + sizeT v + sizeT sl
  | .Index v => 1 + sizeT v
  | .Lambda a b => 1 + sizeT a + sizeT b
  | .IfExp t b o => 1 + sizeT t + sizeT b + sizeT o
  | .arguments a d _ _ => 1 + go a + go d
  | .KeywordArg a v => 1 + sizeT a + sizeT v
  | .StarArg a => 1 + sizeT a
  | .DoubleStarArg a => 1 + sizeT a
  | .callArgs => 1
  | .unknown _ => 1
where
  go : List Node → Nat
    | [] => 1
    | x :: xs => 1 + sizeT x + go xs
  ko : Option Node → Nat
    | none => 1
    | some x => 1 + sizeT x

/-- `decompile` (decompiler.py 75-87): build a fresh `Decompiler` from the
two configuration arguments, visit the tree, and join the completed lines.
The fuel is the embedding's recursion bound, amply above any call depth the
tree can produce. -/
def decompile (tree : Node) (indentation : Nat) (line_length : Nat) :
    Except Err String :=
  let cfg : Config := { indentation := indentation, max_line_length := line_length }
  match visitF cfg (8 * sizeT tree + 64) tree initState with
  | .error e => .error e
  | .ok s => .ok (joinStr s.lines)

/-- `decompile` at its default arguments `indentation=4, line_length=100`. -/
def decompileDefault (tree : Node) : Except Err String := decompile tree 4 100

end AstDecompiler

namespace AstDecompiler

/-! ## Basic lemmas about the primitives -/

/-- The full character stream held by the buffer: completed lines followed
by the in-progress line. -/
def render (s : DState) : String := joinStr s.lines ++ joinStr s.current_line

theorem joinStr_append (l₁ l₂ : List String) :
    joinStr (l₁ ++ l₂) = joinStr l₁ ++ joinStr l₂ := by
  induction l₁ with
  | nil => simp [joinStr]
  | cons h t ih =>
    show h ++ joinStr (t ++ l₂) = h ++ joinStr t ++ joinStr l₂
    rw [ih, String.append_assoc]

theorem joinStr_nil : joinStr [] = "" := rfl

theorem joinStr_singleton (a : String) : joinStr [a] = a := by
  simp [joinStr]

theorem eseq_ok {x : Except Err DState} {g : DState → Except Err DState}
    {s' : DState} (h : eseq x g = .ok s') :
    ∃ s₁, x = .ok s₁ ∧ g s₁ = .ok s' := by
  cases x with
  | error e => simp [eseq] at h
  | ok t => exact ⟨t, rfl, h⟩

theorem emap_ok {x : Except Err DState} {g : DState → DState}
    {s' : DState} (h : emap x g = .ok s') :
    ∃ s₁, x = .ok s₁ ∧ s' = g s₁ := by
  cases x with
  | error e => simp [emap] at h
  | ok t => simp [emap] at h; exact ⟨t, rfl, h.symm⟩

@[simp] theorem eseq_ok_simp (s : DState) (g : DState → Except Err DState) :
    eseq (.ok s) g = g s := rfl

@[simp] theorem eseq_error_simp (e : Err) (g : DState → Except Err DState) :
    eseq (.error e) g = .error e := rfl

@[simp] theorem emap_ok_simp (s : DState) (g : DState → DState) :
    emap (.ok s) g = .ok (g s) := rfl

@[simp] theorem emap_error_simp (e : Err) (g : DState → DState) :
    emap (.error e) g = .error e := rfl

@[simp] theorem write_lines (c : String) (s : DState) :
    (write c s).lines = s.lines := rfl

@[simp] theorem write_indentation_lines (s : DState) :
    (write_indentation s).lines = s.lines := rfl

@[simp] theorem write_newline_lines (s : DState) :
    (write_newline s).lines = s.lines ++ [joinStr s.current_line ++ "\n"] := rfl

theorem render_write (c : String) (s : DState) :
    render (write c s) = render s ++ c := by
  simp only [render, write, joinStr_append, joinStr_singleton, String.append_assoc]

theorem render_write_newline (s : DState) :
    render (write_newline s) = render s ++ "\n" := by
  show joinStr (s.lines ++ [joinStr s.current_line ++ "\n"]) ++ joinStr [] = _
  rw [joinStr_nil, joinStr_append, joinStr_singleton, String.append_empty, render,
    String.append_assoc]

theorem render_write_indentation (s : DState) :
    render (write_indentation s) = render s ++ spaces s.current_indentation :=
  render_write _ s

/-! ## The buffer/stack/flag preservation invariant

Every visitor call, on success, only appends to the completed-line list and
to the rendered character stream, restores the ancestry stack and the ghost
depth, preserves the indentation depth, appends to the ghost trace, and
never clears `has_unicode_literals`. -/

/-- Stack-shape invariant: the length of `node_stack` equals the number
of active `visit` calls plus the number of `_CallArgs` sentinels pushed
by `visit_Call` frames (decompiler.py 100-105 and 592-596). -/
def StackOK (s : DState) : Prop :=
  s.node_stack.length = s.ghost_depth + countCallArgs s.node_stack

/-- Every trace entry `(len, cnt, depth)` recorded at a `visit` entry
satisfies `len = depth + cnt`. -/
def TraceOK (s : DState) : Prop :=
  ∀ e ∈ s.ghost_trace, e.1 = e.2.2 + e.2.1

/-- The indentation-blind part of the invariant: the completed-line list
and the rendered stream only grow, the ancestry stack and ghost depth are
restored, the trace only grows and stays well-formed, and the
`has_unicode_literals` flag is never cleared. -/
def Appends (s s' : DState) : Prop :=
  (∃ ls, s'.lines = s.lines ++ ls) ∧
  (∃ d, render s' = render s ++ d) ∧
  s'.node_stack = s.node_stack ∧
  (s.has_unicode_literals = true → s'.has_unicode_literals = true) ∧
  s'.ghost_depth = s.ghost_depth ∧
  (∃ t, s'.ghost_trace = s.ghost_trace ++ t) ∧
  (StackOK s → TraceOK s → TraceOK s')

/-- `Appends` plus preservation of the indentation depth. -/
def Preserves (s s' : DState) : Prop :=
  Appends s s' ∧ s'.current_indentation = s.current_indentation

theorem Appends.arefl (s : DState) : Appends s s :=
  ⟨⟨[], by simp⟩, ⟨"", by simp⟩, rfl, fun h => h, rfl, ⟨[], by simp⟩,
    fun _ ht => ht⟩

theorem Appends.atrans {s₁ s₂ s₃ : DState}
    (h₁ : Appends s₁ s₂) (h₂ : Appends s₂ s₃) : Appends s₁ s₃ := by
  obtain ⟨⟨l₁, hl₁⟩, ⟨d₁, hd₁⟩, hs₁, hu₁, hg₁, ⟨t₁, ht₁⟩, hq₁⟩ := h₁
  obtain ⟨⟨l₂, hl₂⟩, ⟨d₂, hd₂⟩, hs₂, hu₂, hg₂, ⟨t₂, ht₂⟩, hq₂⟩ := h₂
  refine ⟨⟨l₁ ++ l₂, ?_⟩, ⟨d₁ ++ d₂, ?_⟩, hs₂.trans hs₁,
    fun h => hu₂ (hu₁ h), hg₂.trans hg₁, ⟨t₁ ++ t₂, ?_⟩, ?_⟩
  · rw [hl₂, hl₁, List.append_assoc]
  · rw [hd₂, hd₁, String.append_assoc]
  · rw [ht₂, ht₁, List.append_assoc]
  · intro hs ht
    exact hq₂ (by simp only [StackOK, hs₁, hg₁]; exact hs) (hq₁ hs ht)

theorem Preserves.refl (s : DState) : Preserves s s := ⟨Appends.arefl s, rfl⟩

theorem Preserves.trans {s₁ s₂ s₃ : DState}
    (h₁ : Preserves s₁ s₂) (h₂ : Preserves s₂ s₃) : Preserves s₁ s₃ :=
  ⟨Appends.atrans h₁.1 h₂.1, h₂.2.trans h₁.2⟩

theorem Preserves.appends {s s' : DState} (h : Preserves s s') : Appends s s' :=
  h.1

theorem pres_write (c : String) (s : DState) : Preserves s (write c s) :=
  ⟨⟨⟨[], by simp [write]⟩, ⟨c, render_write c s⟩, rfl, fun h => h, rfl,
    ⟨[], by simp [write]⟩, fun _ ht => ht⟩, rfl⟩

theorem pres_write_newline (s : DState) : Preserves s (write_newline s) :=
  ⟨⟨⟨[joinStr s.current_line ++ "\n"], rfl⟩, ⟨"\n", render_write_newline s⟩,
    rfl, fun h => h, rfl, ⟨[], by simp [write_newline]⟩, fun _ ht => ht⟩, rfl⟩

theorem pres_write_indentation (s : DState) : Preserves s (write_indentation s) :=
  pres_write _ s

theorem pres_write_if (b : Bool) (c : String) (s : DState) :
    Preserves s (if b then write c s else s) := by
  cases b
  · exact Preserves.refl s
  · exact pres_write c s

/-- Changing only the indentation depth is `Appends`-neutral. -/
theorem appends_setIndent (s : DState) (k : Nat) :
    Appends s { s with current_indentation := k } :=
  ⟨⟨[], by simp⟩, ⟨"", by simp [render]⟩, rfl, fun h => h, rfl, ⟨[], by simp⟩,
    fun _ ht => ht⟩

/-- Setting the `has_unicode_literals` flag to true is monotone. -/
theorem pres_setFlag (s : DState) :
    Preserves s { s with has_unicode_literals := true } :=
  ⟨⟨⟨[], by simp⟩, ⟨"", by simp [render]⟩, rfl, fun _ => rfl, rfl,
    ⟨[], by simp⟩, fun _ ht => ht⟩, rfl⟩

/-- Appending a non-sentinel node does not change the sentinel count. -/
theorem countCallArgs_append_not (stack : List Node) {n : Node}
    (hn : isCallArgsNode n = false) :
    countCallArgs (stack ++ [n]) = countCallArgs stack := by
  simp [countCallArgs, List.countP_append, List.countP_cons, hn]

/-- Appending the sentinel increments the sentinel count. -/
theorem countCallArgs_append_sentinel (stack : List Node) :
    countCallArgs (stack ++ [Node.callArgs]) = countCallArgs stack + 1 := by
  simp [countCallArgs, List.countP_append, List.countP_cons, isCallArgsNode]

/-- The push/pop wrapper of `visit`: if the dispatched body satisfies the
invariant from the pushed state, `visit` satisfies it from the original
state. -/
theorem pres_wrap {n : Node} {s s₂ : DState}
    (h : Preserves (pushVisit n s) s₂) (hn : isCallArgsNode n = false) :
    Preserves s (popVisit s₂) := by
  obtain ⟨⟨⟨ls, hl⟩, ⟨d, hd⟩, hst, hu, hg, ⟨t, ht⟩, hq⟩, hi⟩ := h
  have hps : StackOK s → StackOK (pushVisit n s) := by
    intro hs
    show (s.node_stack ++ [n]).length =
      (s.ghost_depth + 1) + countCallArgs (s.node_stack ++ [n])
    rw [countCallArgs_append_not _ hn, List.length_append,
      List.length_singleton]
    simp only [StackOK] at hs
    omega
  refine ⟨⟨⟨ls, ?_⟩, ⟨d, ?_⟩, ?_, ?_, ?_, ?_, ?_⟩, ?_⟩
  · simpa [popVisit, pushVisit] using hl
  · have : render (pushVisit n s) = render s := by simp [render, pushVisit]
    rw [this] at hd
    simpa [render, popVisit] using hd
  · have : s₂.node_stack = s.node_stack ++ [n] := by
      simpa [pushVisit] using hst
    simp [popVisit, this]
  · intro hflag
    exact hu (by simpa [pushVisit] using hflag)
  · have : s₂.ghost_depth = s.ghost_depth + 1 := by simpa [pushVisit] using hg
    simp [popVisit, this]
  · refine ⟨((s.node_stack ++ [n]).length, countCallArgs (s.node_stack ++ [n]),
      s.ghost_depth + 1) :: t, ?_⟩
    show s₂.ghost_trace = _
    rw [ht]
    simp [pushVisit]
  · intro hs htr
    have hpt : TraceOK (pushVisit n s) := by
      intro e he
      have he' : e ∈ s.ghost_trace ++
          [((s.node_stack ++ [n]).length, countCallArgs (s.node_stack ++ [n]),
            s.ghost_depth + 1)] := he
      rcases List.mem_append.mp he' with h₁ | h₂
      · exact htr e h₁
      · rcases List.mem_singleton.mp h₂ with rfl
        exact hps hs
    exact hq (hps hs) hpt
  · simpa [popVisit, pushVisit] using hi

end AstDecompiler

namespace AstDecompiler

theorem pres_write_ite (p : Prop) [Decidable p] (c : String) (s : DState) :
    Preserves s (if p then write c s else s) := by
  split
  · exact pres_write c s
  · exact Preserves.refl s

theorem pres_write_iten (p : Prop) [Decidable p] (c : String) (s : DState) :
    Preserves s (if p then s else write c s) := by
  split
  · exact Preserves.refl s
  · exact pres_write c s

theorem pres_setFlag_ite (p : Prop) [Decidable p] (s : DState) :
    Preserves s (if p then { s with has_unicode_literals := true } else s) := by
  split
  · exact pres_setFlag s
  · exact Preserves.refl s

/-- The `_CallArgs` sentinel push/pop of `visit_Call`: the sentinel only
touches the stack, and popping restores it. -/
theorem pres_wrapCall {s t : DState} (h : Preserves (pushCallArgs s) t) :
    Preserves s (popCallArgs t) := by
  obtain ⟨⟨⟨ls, hl⟩, ⟨d, hd⟩, hst, hu, hg, ⟨tr, ht⟩, hq⟩, hi⟩ := h
  refine ⟨⟨⟨ls, by simpa [popCallArgs, pushCallArgs] using hl⟩, ⟨d, ?_⟩, ?_,
    fun hf => hu (by simpa [pushCallArgs] using hf), by simpa [popCallArgs, pushCallArgs] using hg,
    ⟨tr, by simpa [popCallArgs, pushCallArgs] using ht⟩, ?_⟩,
    by simpa [popCallArgs, pushCallArgs] using hi⟩
  · have : render (pushCallArgs s) = render s := by simp [render, pushCallArgs]
    rw [this] at hd
    simpa [render, popCallArgs] using hd
  · have : t.node_stack = s.node_stack ++ [.callArgs] := by
      simpa [pushCallArgs] using hst
    simp [popCallArgs, this]
  · intro hs htr
    refine hq ?_ htr
    show (s.node_stack ++ [Node.callArgs]).length =
      s.ghost_depth + countCallArgs (s.node_stack ++ [Node.callArgs])
    rw [countCallArgs_append_sentinel, List.length_append,
      List.length_singleton]
    simp only [StackOK] at hs
    omega

theorem rollback_exact {s s₁ : DState} (h : ∃ ls, s₁.lines = s.lines ++ ls) :
    s₁.lines.take s.lines.length = s.lines := by
  obtain ⟨ls, hl⟩ := h
  rw [hl, List.take_left]


set_option maxHeartbeats 2000000

/-- Every visitor operation, on success, satisfies `Preserves`: it only
appends to the completed lines, the rendered stream and the ghost trace,
restores the ancestry stack, the ghost depth and the indentation, and
never clears the `has_unicode_literals` flag.  One simultaneous induction
on fuel over the whole mutual block. -/
theorem appends_add_indentation (cfg : Config) (s : DState) :
    Appends s (add_indentation cfg s) := appends_setIndent s _

theorem appends_sub_indentation (cfg : Config) (s : DState) :
    Appends s (sub_indentation cfg s) := appends_setIndent s _

theorem presAll (cfg : Config) : ∀ f : Nat,
    (∀ n s s', visitF cfg f n s = .ok s' → Preserves s s') ∧
    (∀ l s s', visitSeqF cfg f l s = .ok s' → Preserves s s') ∧
    (∀ l s s', decoratorLoopF cfg f l s = .ok s' → Preserves s s') ∧
    (∀ l s s', writeSuiteF cfg f l s = .ok s' → Preserves s s') ∧
    (∀ l sep an np fs s s',
      writeExpressionListF cfg f l sep an np fs s = .ok s' → Preserves s s') ∧
    (∀ l sep np fs s s',
      welFallbackF cfg f l sep np fs s = .ok s' → Preserves s s') ∧
    (∀ l sep an fst s b s',
      welAttemptF cfg f l sep an fst s = .ok (b, s') → Preserves s s') ∧
    (∀ l sep fs s s', welMultiF cfg f l sep fs s = .ok s' → Preserves s s') ∧
    (∀ l s s', compareTailF cfg f l s = .ok s' → Preserves s s') := by
  intro f
  induction f with
  | zero =>
    refine ⟨?_, ?_, ?_, ?_, ?_, ?_, ?_, ?_, ?_⟩ <;> intros <;>
      simp_all [visitF, visitSeqF, decoratorLoopF, writeSuiteF,
        writeExpressionListF, welFallbackF, welAttemptF, welMultiF, compareTailF]
  | succ f ih =>
    obtain ⟨ihV, ihSeq, ihDec, ihSuite, ihWel, ihFall, ihAtt, ihMulti, ihCmp⟩ := ih
    refine ⟨?_, ?_, ?_, ?_, ?_, ?_, ?_, ?_, ?_⟩
    · -- visitF
      intro n s s' h
      cases n with
      | Module body =>
        simp only [visitF] at h
        obtain ⟨s₂, hb, rfl⟩ := emap_ok h
        exact pres_wrap (ihSeq _ _ _ hb) rfl
      | Expr v =>
        simp only [visitF] at h
        obtain ⟨s₂, hb, rfl⟩ := emap_ok h
        obtain ⟨s₃, hv, rfl⟩ := emap_ok hb
        exact pres_wrap (((pres_write_indentation _).trans (ihV _ _ _ hv)).trans
          (pres_write_newline _)) rfl
      | FunctionDef name dec args body =>
        simp only [visitF] at h
        obtain ⟨s₂, hb, rfl⟩ := emap_ok h
        obtain ⟨s₃, hdec, hg⟩ := eseq_ok hb
        obtain ⟨s₄, hargs, hsuite⟩ := eseq_ok hg
        refine pres_wrap (((((((pres_write_newline _).trans (ihDec _ _ _ hdec)).trans
          (pres_write_indentation _)).trans (pres_write _ _)).trans
          (ihV _ _ _ hargs)).trans
          ((pres_write _ _).trans (pres_write_newline _))).trans
          (ihSuite _ _ _ hsuite)) rfl
      | ClassDef name dec bases body =>
        simp only [visitF] at h
        obtain ⟨s₂, hb, rfl⟩ := emap_ok h
        obtain ⟨s₃, hdec, hg⟩ := eseq_ok hb
        obtain ⟨s₄, hbases, hsuite⟩ := eseq_ok hg
        refine pres_wrap ((((((((pres_write_newline _).trans (pres_write_newline _)).trans
          (ihDec _ _ _ hdec)).trans
          (pres_write_indentation _)).trans (pres_write _ _)).trans
          (ihWel _ _ _ _ _ _ _ hbases)).trans
          ((pres_write _ _).trans (pres_write_newline _))).trans
          (ihSuite _ _ _ hsuite)) rfl
      | Pass =>
        simp only [visitF] at h
        obtain ⟨s₂, hb, rfl⟩ := emap_ok h
        obtain rfl := Except.ok.inj hb
        exact pres_wrap (((pres_write_indentation _).trans (pres_write _ _)).trans
          (pres_write_newline _)) rfl
      | ImportFrom module names level =>
        simp only [visitF] at h
        obtain ⟨s₂, hb, rfl⟩ := emap_ok h
        obtain ⟨s₃, hw, rfl⟩ := emap_ok hb
        refine pres_wrap (((((((pres_setFlag_ite _ _).trans
          (pres_write_indentation _)).trans (pres_write _ _)).trans
          (pres_write_ite _ _ _)).trans (pres_write _ _)).trans
          (ihWel _ _ _ _ _ _ _ hw)).trans (pres_write_newline _)) rfl
      | «alias» name asname =>
        simp only [visitF] at h
        obtain ⟨s₂, hb, rfl⟩ := emap_ok h
        obtain rfl := Except.ok.inj hb
        refine @pres_wrap (.alias name asname) s _ ?_ rfl
        cases asname with
        | none => exact pres_write _ _
        | some an => exact (pres_write _ _).trans (pres_write _ _)
      | Name id =>
        simp only [visitF] at h
        obtain ⟨s₂, hb, rfl⟩ := emap_ok h
        obtain rfl := Except.ok.inj hb
        exact pres_wrap (pres_write _ _) rfl
      | Num n =>
        simp only [visitF] at h
        obtain ⟨s₂, hb, rfl⟩ := emap_ok h
        obtain rfl := Except.ok.inj hb
        exact pres_wrap (pres_write _ _) rfl
      | Str isStr v =>
        simp only [visitF] at h
        obtain ⟨s₂, hb, rfl⟩ := emap_ok h
        obtain rfl := Except.ok.inj hb
        exact pres_wrap ((pres_write_ite _ _ _).trans (pres_write _ _)) rfl
      | BinOp l op r =>
        simp only [visitF] at h
        obtain ⟨s₂, hb, rfl⟩ := emap_ok h
        obtain ⟨s₃, hl, hg⟩ := eseq_ok hb
        obtain ⟨s₄, hr, hfin⟩ := eseq_ok hg
        obtain rfl := Except.ok.inj hfin
        refine @pres_wrap (.BinOp l op r) s _ ?_ rfl
        exact ((((pres_write_ite _ _ _).trans (ihV _ _ _ hl)).trans
          ((pres_write _ _).trans ((pres_write _ _).trans (pres_write _ _)))).trans
          (ihV _ _ _ hr)).trans (pres_write_ite _ _ _)
      | UnaryOp op v =>
        simp only [visitF] at h
        obtain ⟨s₂, hb, rfl⟩ := emap_ok h
        obtain ⟨s₃, hv, hfin⟩ := eseq_ok hb
        obtain rfl := Except.ok.inj hfin
        exact pres_wrap ((((pres_write_ite _ _ _).trans (pres_write _ _)).trans
          (ihV _ _ _ hv)).trans (pres_write_ite _ _ _)) rfl
      | BoolOp op values =>
        simp only [visitF] at h
        obtain ⟨s₂, hb, rfl⟩ := emap_ok h
        obtain ⟨s₃, hw, rfl⟩ := emap_ok hb
        exact pres_wrap (((pres_write_ite _ _ _).trans
          (ihWel _ _ _ _ _ _ _ hw)).trans (pres_write_ite _ _ _)) rfl
      | Compare l ops comparators =>
        simp only [visitF] at h
        obtain ⟨s₂, hb, rfl⟩ := emap_ok h
        obtain ⟨s₃, hl, hg⟩ := eseq_ok hb
        obtain ⟨s₄, hc, rfl⟩ := emap_ok hg
        exact pres_wrap ((((pres_write_ite _ _ _).trans (ihV _ _ _ hl)).trans
          (ihCmp _ _ _ hc)).trans (pres_write_ite _ _ _)) rfl
      | Call func args keywords starargs kwargs =>
        simp only [visitF] at h
        obtain ⟨s₂, hb, rfl⟩ := emap_ok h
        obtain ⟨s₃, hf, hrest⟩ := eseq_ok hb
        obtain ⟨s₄, hargs, rfl⟩ := emap_ok hrest
        have hinner : Preserves (pushCallArgs (write "(" s₃)) (write ")" s₄) := by
          split at hargs
          · obtain rfl := Except.ok.inj hargs
            exact pres_write _ _
          · exact (ihWel _ _ _ _ _ _ _ hargs).trans (pres_write _ _)
        exact pres_wrap ((ihV _ _ _ hf).trans ((pres_write _ _).trans
          (pres_wrapCall hinner))) rfl
      | keyword arg value =>
        simp only [visitF] at h
        obtain ⟨s₂, hb, rfl⟩ := emap_ok h
        exact pres_wrap ((pres_write _ _).trans (ihV _ _ _ hb)) rfl
      | Attribute value attr =>
        simp only [visitF] at h
        obtain ⟨s₂, hb, rfl⟩ := emap_ok h
        obtain ⟨s₃, hv, rfl⟩ := emap_ok hb
        exact pres_wrap ((ihV _ _ _ hv).trans (pres_write _ _)) rfl
      | Subscript value slice =>
        simp only [visitF] at h
        obtain ⟨s₂, hb, rfl⟩ := emap_ok h
        obtain ⟨s₃, hv, hg⟩ := eseq_ok hb
        obtain ⟨s₄, hs, rfl⟩ := emap_ok hg
        exact pres_wrap ((((ihV _ _ _ hv).trans (pres_write _ _)).trans
          (ihV _ _ _ hs)).trans (pres_write _ _)) rfl
      | Index v =>
        simp only [visitF] at h
        obtain ⟨s₂, hb, rfl⟩ := emap_ok h
        exact pres_wrap (ihV _ _ _ hb) rfl
      | Lambda args body =>
        simp only [visitF] at h
        obtain ⟨s₂, hb, rfl⟩ := emap_ok h
        obtain ⟨s₃, hargs, hg⟩ := eseq_ok hb
        obtain ⟨s₄, hbody, hfin⟩ := eseq_ok hg
        obtain rfl := Except.ok.inj hfin
        exact pres_wrap ((((((pres_write_ite _ _ _).trans (pres_write _ _)).trans
          (pres_write_ite _ _ _)).trans (ihV _ _ _ hargs)).trans
          ((pres_write _ _).trans (ihV _ _ _ hbody))).trans (pres_write_ite _ _ _)) rfl
      | IfExp test body orelse =>
        simp only [visitF] at h
        obtain ⟨s₂, hb, rfl⟩ := emap_ok h
        obtain ⟨s₃, hbody, hg⟩ := eseq_ok hb
        obtain ⟨s₄, htest, hg₂⟩ := eseq_ok hg
        obtain ⟨s₅, hor, hfin⟩ := eseq_ok hg₂
        obtain rfl := Except.ok.inj hfin
        exact pres_wrap ((((((pres_write_ite _ _ _).trans (ihV _ _ _ hbody)).trans
          ((pres_write _ _).trans (ihV _ _ _ htest))).trans
          (pres_write _ _)).trans (ihV _ _ _ hor)).trans (pres_write_ite _ _ _)) rfl
      | arguments args defaults vararg kwarg =>
        simp only [visitF] at h
        obtain ⟨s₂, hb, rfl⟩ := emap_ok h
        split at hb
        · obtain rfl := Except.ok.inj hb
          exact pres_wrap (Preserves.refl _) rfl
        · exact pres_wrap (ihWel _ _ _ _ _ _ _ hb) rfl
      | KeywordArg arg value =>
        simp only [visitF] at h
        obtain ⟨s₂, hb, rfl⟩ := emap_ok h
        obtain ⟨s₃, ha, hv⟩ := eseq_ok hb
        exact pres_wrap ((ihV _ _ _ ha).trans ((pres_write _ _).trans (ihV _ _ _ hv))) rfl
      | StarArg arg =>
        simp only [visitF] at h
        obtain ⟨s₂, hb, rfl⟩ := emap_ok h
        exact pres_wrap ((pres_write _ _).trans (ihV _ _ _ hb)) rfl
      | DoubleStarArg arg =>
        simp only [visitF] at h
        obtain ⟨s₂, hb, rfl⟩ := emap_ok h
        exact pres_wrap ((pres_write _ _).trans (ihV _ _ _ hb)) rfl
      | callArgs => simp [visitF, emap] at h
      | unknown desc => simp [visitF, emap] at h
    · -- visitSeqF
      intro l s s' h
      cases l with
      | nil =>
        simp only [visitSeqF] at h
        obtain rfl := Except.ok.inj h
        exact Preserves.refl _
      | cons n rest =>
        simp only [visitSeqF] at h
        obtain ⟨s₁, hn, hrest⟩ := eseq_ok h
        exact (ihV _ _ _ hn).trans (ihSeq _ _ _ hrest)
    · -- decoratorLoopF
      intro l s s' h
      cases l with
      | nil =>
        simp only [decoratorLoopF] at h
        obtain rfl := Except.ok.inj h
        exact Preserves.refl _
      | cons d rest =>
        simp only [decoratorLoopF] at h
        obtain ⟨s₁, hd, hrest⟩ := eseq_ok h
        exact ((((pres_write_indentation _).trans (pres_write _ _)).trans
          (ihV _ _ _ hd)).trans (pres_write_newline _)).trans (ihDec _ _ _ hrest)
    · -- writeSuiteF
      intro l s s' h
      simp only [writeSuiteF] at h
      obtain ⟨s₁, hseq, rfl⟩ := emap_ok h
      have hp := ihSeq _ _ _ hseq
      refine ⟨Appends.atrans (Appends.atrans (appends_add_indentation cfg s) hp.1)
        (appends_sub_indentation cfg s₁), ?_⟩
      show s₁.current_indentation - cfg.indentation = s.current_indentation
      have h₁ : s₁.current_indentation = (add_indentation cfg s).current_indentation := hp.2
      simp only [add_indentation] at h₁
      omega
    · -- writeExpressionListF
      intro l sep an np fs s s' h
      simp only [writeExpressionListF] at h
      cases hA : welAttemptF cfg f l sep an true s with
      | error e => rw [hA] at h; simp at h
      | ok p =>
        obtain ⟨b, s₁⟩ := p
        rw [hA] at h
        cases b with
        | false =>
          simp only at h
          obtain rfl := Except.ok.inj h
          exact ihAtt _ _ _ _ _ _ _ hA
        | true =>
          simp only at h
          have hp₁ : Preserves s s₁ := ihAtt _ _ _ _ _ _ _ hA
          have hroll : Preserves s (rollbackState s.lines.length s.current_line s₁) := by
            have htake : s₁.lines.take s.lines.length = s.lines :=
              rollback_exact hp₁.1.1
            refine ⟨⟨⟨[], by simp [rollbackState, htake]⟩, ⟨"", ?_⟩, ?_, ?_, ?_, ?_, ?_⟩, ?_⟩
            · simp [render, rollbackState, htake]
            · exact hp₁.1.2.2.1
            · exact hp₁.1.2.2.2.1
            · exact hp₁.1.2.2.2.2.1
            · exact hp₁.1.2.2.2.2.2.1
            · exact hp₁.1.2.2.2.2.2.2
            · exact hp₁.2
          exact hroll.trans (ihFall _ _ _ _ _ _ h)
    · -- welFallbackF
      intro l sep np fs s s' h
      simp only [welFallbackF] at h
      cases hM : welMultiF cfg f l (rstrip sep) fs
          (add_indentation cfg (write_newline (if np then write "(" s else s))) with
      | error e => rw [hM] at h; simp at h
      | ok s₁ =>
        rw [hM] at h
        simp only at h
        obtain rfl := Except.ok.inj h
        have hp := ihMulti _ _ _ _ _ hM
        have base : Preserves s (write_newline (if np then write "(" s else s)) :=
          (pres_write_ite _ _ _).trans (pres_write_newline _)
        refine ⟨?_, ?_⟩
        · refine Appends.atrans (Appends.atrans (Appends.atrans (Appends.atrans
            base.1 (appends_add_indentation cfg _)) hp.1)
            (appends_sub_indentation cfg s₁)) ?_
          exact (((pres_write_indentation _).trans (pres_write_ite _ _ _)).1)
        · have h₁ : s₁.current_indentation =
              (write_newline (if np then write "(" s else s)).current_indentation
                + cfg.indentation := hp.2
          have h₂ : (write_newline (if np then write "(" s else s)).current_indentation
              = s.current_indentation := base.2
          have : ((if np then
              write ")" (write_indentation (sub_indentation cfg s₁))
            else write_indentation (sub_indentation cfg s₁))).current_indentation
              = s₁.current_indentation - cfg.indentation := by
            cases np <;> simp [write, write_indentation, sub_indentation]
          rw [this, h₁, h₂]
          omega
    · -- welAttemptF
      intro l sep an fst s b s' h
      cases l with
      | nil =>
        simp only [welAttemptF] at h
        obtain ⟨rfl, rfl⟩ := Prod.mk.injEq .. ▸ Except.ok.inj h
        exact Preserves.refl _
      | cons n rest =>
        simp only [welAttemptF] at h
        cases hv : visitF cfg f n (if fst then s else write sep s) with
        | error e => rw [hv] at h; simp at h
        | ok s₁ =>
          rw [hv] at h
          simp only at h
          have base : Preserves s s₁ := by
            refine Preserves.trans ?_ (ihV _ _ _ hv)
            cases fst
            · exact pres_write _ _
            · exact Preserves.refl _
          split at h
          · obtain hh := Except.ok.inj h
            obtain ⟨rfl, rfl⟩ := Prod.mk.injEq .. ▸ hh
            exact base
          · exact base.trans (ihAtt _ _ _ _ _ _ _ h)
    · -- welMultiF
      intro l sep fs s s' h
      cases l with
      | nil =>
        simp only [welMultiF] at h
        obtain rfl := Except.ok.inj h
        exact Preserves.refl _
      | cons n rest =>
        simp only [welMultiF] at h
        cases hv : visitF cfg f n (write_indentation s) with
        | error e => rw [hv] at h; simp at h
        | ok s₁ =>
          rw [hv] at h
          simp only at h
          refine ((((pres_write_indentation _).trans (ihV _ _ _ hv)).trans
            (pres_write_ite _ _ _)).trans (pres_write_newline _)).trans
            (ihMulti _ _ _ _ _ h)
    · -- compareTailF
      intro l s s' h
      cases l with
      | nil =>
        simp only [compareTailF] at h
        obtain rfl := Except.ok.inj h
        exact Preserves.refl _
      | cons p rest =>
        obtain ⟨op, expr⟩ := p
        simp only [compareTailF] at h
        obtain ⟨s₁, he, hrest⟩ := eseq_ok h
        exact ((((pres_write _ _).trans (pres_write _ _)).trans
          (pres_write _ _)).trans (ihV _ _ _ he)).trans
          ((ihCmp _ _ _ hrest))

/-! ## Named corollaries of `presAll` -/

theorem visitF_pres {cfg : Config} {f : Nat} {n : Node} {s s' : DState}
    (h : visitF cfg f n s = .ok s') : Preserves s s' :=
  (presAll cfg f).1 n s s' h

theorem welAttemptF_pres {cfg : Config} {f : Nat} {l : List Node} {sep : String}
    {an fst : Bool} {s : DState} {b : Bool} {s' : DState}
    (h : welAttemptF cfg f l sep an fst s = .ok (b, s')) : Preserves s s' :=
  (presAll cfg f).2.2.2.2.2.2.1 l sep an fst s b s' h

theorem writeExpressionListF_pres {cfg : Config} {f : Nat} {l : List Node}
    {sep : String} {an np fs : Bool} {s s' : DState}
    (h : writeExpressionListF cfg f l sep an np fs s = .ok s') : Preserves s s' :=
  (presAll cfg f).2.2.2.2.1 l sep an np fs s s' h

theorem welFallbackF_pres {cfg : Config} {f : Nat} {l : List Node}
    {sep : String} {np fs : Bool} {s s' : DState}
    (h : welFallbackF cfg f l sep np fs s = .ok s') : Preserves s s' :=
  (presAll cfg f).2.2.2.2.2.1 l sep np fs s s' h

theorem welMultiF_pres {cfg : Config} {f : Nat} {l : List Node}
    {sep : String} {fs : Bool} {s s' : DState}
    (h : welMultiF cfg f l sep fs s = .ok s') : Preserves s s' :=
  (presAll cfg f).2.2.2.2.2.2.2.1 l sep fs s s' h

theorem visitSeqF_pres {cfg : Config} {f : Nat} {l : List Node} {s s' : DState}
    (h : visitSeqF cfg f l s = .ok s') : Preserves s s' :=
  (presAll cfg f).2.1 l s s' h

theorem decoratorLoopF_pres {cfg : Config} {f : Nat} {l : List Node} {s s' : DState}
    (h : decoratorLoopF cfg f l s = .ok s') : Preserves s s' :=
  (presAll cfg f).2.2.1 l s s' h

theorem writeSuiteF_pres {cfg : Config} {f : Nat} {l : List Node} {s s' : DState}
    (h : writeSuiteF cfg f l s = .ok s') : Preserves s s' :=
  (presAll cfg f).2.2.2.1 l s s' h

theorem compareTailF_pres {cfg : Config} {f : Nat} {l : List (CmpOpKind × Node)}
    {s s' : DState} (h : compareTailF cfg f l s = .ok s') : Preserves s s' :=
  (presAll cfg f).2.2.2.2.2.2.2.2 l s s' h

/-! ## The parent seen by a dispatched visit method -/

/-- Inside a `visit_<Kind>` method the parent returned by
`get_parent_node` is the node that was on top of the stack before `visit`
pushed the current one. -/
theorem get_parent_push (n : Node) (s : DState) :
    get_parent_node (pushVisit n s) = s.node_stack.getLast? := by
  show (match (s.node_stack ++ [n]).reverse with
        | _ :: parent :: _ => some parent
        | _ => none) = s.node_stack.getLast?
  rw [List.reverse_append]
  cases hx : s.node_stack.reverse with
  | nil =>
    have : s.node_stack = [] := by simpa using congrArg List.reverse hx
    simp [this]
  | cons hd tl =>
    have h₁ : s.node_stack.getLast? = some hd := by
      rw [List.getLast?_eq_head?_reverse, hx]; rfl
    simp [h₁]

theorem render_popVisit (s : DState) : render (popVisit s) = render s := by
  simp [render, popVisit]

theorem render_pushVisit (n : Node) (s : DState) :
    render (pushVisit n s) = render s := by
  simp [render, pushVisit]


theorem Node.beq_refl : (n : Node) → Node.beq n n = true
  | .Module b => beqGo_refl b
  | .Expr v => Node.beq_refl v
  | .FunctionDef n d a b => by
      show (n == n && Node.beq.go d d && Node.beq a a && Node.beq.go b b) = true
      simp [Node.beq_refl a, beqGo_refl d, beqGo_refl b]
  | .ClassDef n d ba b => by
      show (n == n && Node.beq.go d d && Node.beq.go ba ba && Node.beq.go b b) = true
      simp [beqGo_refl d, beqGo_refl ba, beqGo_refl b]
  | .Pass => rfl
  | .ImportFrom m ns l => by
      show (m == m && Node.beq.go ns ns && l == l) = true
      simp [beqGo_refl ns]
  | .alias n a => by
      show (n == n && a == a) = true
      simp
  | .Name i => by show (i == i) = true; simp
  | .Num n => by show (n == n) = true; simp
  | .Str k v => by show (k == k && v == v) = true; simp
  | .BinOp l o r => by
      show (Node.beq l l && o == o && Node.beq r r) = true
      simp [Node.beq_refl l, Node.beq_refl r]
  | .UnaryOp o v => by
      show (o == o && Node.beq v v) = true
      simp [Node.beq_refl v]
  | .BoolOp o vs => by
      show (o == o && Node.beq.go vs vs) = true
      simp [beqGo_refl vs]
  | .Compare l os cs => by
      show (Node.beq l l && os == os && Node.beq.go cs cs) = true
      simp [Node.beq_refl l, beqGo_refl cs]
  | .Call f a k st kw => by
      show (Node.beq f f && Node.beq.go a a && Node.beq.go k k &&
        Node.beq.ob st st && Node.beq.ob kw kw) = true
      simp [Node.beq_refl f, beqGo_refl a, beqGo_refl k, beqOb_refl st, beqOb_refl kw]
  | .keyword a v => by
      show (a == a && Node.beq v v) = true
      simp [Node.beq_refl v]
  | .Attribute v a => by
      show (Node.beq v v && a == a) = true
      simp [Node.beq_refl v]
  | .Subscript v sl => by
      show (Node.beq v v && Node.beq sl sl) = true
      simp [Node.beq_refl v, Node.beq_refl sl]
  | .Index v => Node.beq_refl v
  | .Lambda a b => by
      show (Node.beq a a && Node.beq b b) = true
      simp [Node.beq_refl a, Node.beq_refl b]
  | .IfExp t b o => by
      show (Node.beq t t && Node.beq b b && Node.beq o o) = true
      simp [Node.beq_refl t, Node.beq_refl b, Node.beq_refl o]
  | .arguments a d v k => by
      show (Node.beq.go a a && Node.beq.go d d && v == v && k == k) = true
      simp [beqGo_refl a, beqGo_refl d]
  | .KeywordArg a v => by
      show (Node.beq a a && Node.beq v v) = true
      simp [Node.beq_refl a, Node.beq_refl v]
  | .StarArg a => Node.beq_refl a
  | .DoubleStarArg a => Node.beq_refl a
  | .callArgs => rfl
  | .unknown d => by show (d == d) = true; simp
where
  beqGo_refl : (l : List Node) → Node.beq.go l l = true
    | [] => rfl
    | x :: xs => by
        show (Node.beq x x && Node.beq.go xs xs) = true
        simp [Node.beq_refl x, beqGo_refl xs]
  beqOb_refl : (o : Option Node) → Node.beq.ob o o = true
    | none => rfl
    | some x => Node.beq_refl x

/-! ## Claims -/

/-- C4: a tree for `(a ** b) ** c` unparses with parentheses around the left
sub-expression and a tree for `a ** (b ** c)` unparses with none; at equal
precedence the `should_parenthesize` computation of `visit_BinOp` is true
for the left operand of `**` exactly when that operand is itself a `**`
application, and for a left-associative operator exactly for the right
operand (the disequality hypotheses rule out structurally equal sibling
operands, where the source's object-identity test and structural equality
differ). -/
theorem C4_pow_associativity :
    (decompileDefault (.Module [.Expr (.BinOp (.BinOp (.Name "a") .Pow (.Name "b"))
        .Pow (.Name "c"))]) = .ok "(a ** b) ** c\n") ∧
    (decompileDefault (.Module [.Expr (.BinOp (.Name "a") .Pow
        (.BinOp (.Name "b") .Pow (.Name "c")))]) = .ok "a ** b ** c\n") ∧
    (∀ x y r : Node, binOpShouldParenthesize (.BinOp x .Pow y)
        (some (.BinOp (.BinOp x .Pow y) .Pow r)) = true) ∧
    (∀ l x y : Node, Node.beq (.BinOp x .Pow y) l = false →
      binOpShouldParenthesize (.BinOp x .Pow y)
        (some (.BinOp l .Pow (.BinOp x .Pow y))) = false) ∧
    (∀ (op pop : BinOpKind) (l x y : Node), binOpPrec op = binOpPrec pop →
      op ≠ .Pow →
      binOpShouldParenthesize (.BinOp x op y)
        (some (.BinOp l pop (.BinOp x op y))) = true) ∧
    (∀ (op pop : BinOpKind) (r x y : Node), binOpPrec op = binOpPrec pop →
      op ≠ .Pow → Node.beq (.BinOp x op y) r = false →
      binOpShouldParenthesize (.BinOp x op y)
        (some (.BinOp (.BinOp x op y) pop r)) = false) := by
  refine ⟨by rfl, by rfl, ?_, ?_, ?_, ?_⟩
  · intro x y r
    simp [binOpShouldParenthesize, precedence_of_node, binOpPrec, Node.beq_refl]
  · intro l x y h
    simp [binOpShouldParenthesize, precedence_of_node, binOpPrec, h]
  · intro op pop l x y hprec hne
    cases op <;> cases pop <;>
      simp_all [binOpShouldParenthesize, precedence_of_node, binOpPrec, Node.beq_refl]
  · intro op pop r x y hprec hne hbeq
    cases op <;> cases pop <;>
      simp_all [binOpShouldParenthesize, precedence_of_node, binOpPrec]

/-- The parent kinds of the claim: binary, unary or comparison operator,
or call/attribute-access/subscript (whose base is then the visited child). -/
def operatorParentKind : Node → Bool
  | .BinOp _ _ _ => true
  | .UnaryOp _ _ => true
  | .Compare _ _ _ => true
  | .Call _ _ _ _ _ => true
  | .Attribute _ _ => true
  | .Subscript _ _ => true
  | _ => false

theorem lambdaParen_of_kind {p : Node} (h : operatorParentKind p = true) :
    lambdaShouldParenthesize (some p) = true := by
  cases p <;> simp_all [operatorParentKind, lambdaShouldParenthesize]

theorem ifExpParen_of_kind {p : Node} (n : Node) (h : operatorParentKind p = true) :
    ifExpShouldParenthesize n (some p) = true := by
  cases p <;> simp_all [operatorParentKind, ifExpShouldParenthesize]

theorem lambdaParenHelper {cfg : Config} {f : Nat} {args body : Node}
    {s s' : DState}
    (hsp : lambdaShouldParenthesize s.node_stack.getLast? = true)
    (h : visitF cfg f (.Lambda args body) s = .ok s') :
    ∃ mid, render s' = render s ++ ("(" ++ mid ++ ")") := by
  cases f with
  | zero => simp [visitF] at h
  | succ f =>
    simp only [visitF] at h
    rw [get_parent_push, hsp] at h
    simp only [if_true] at h
    cases hne : lambdaArgsNonEmpty args <;> simp only [hne] at h
    · simp only [Bool.false_eq_true, if_false] at h
      obtain ⟨s₂, hb, rfl⟩ := emap_ok h
      obtain ⟨s₃, hargs, hg⟩ := eseq_ok hb
      obtain ⟨s₄, hbody, hfin⟩ := eseq_ok hg
      obtain rfl := Except.ok.inj hfin
      obtain ⟨d₁, hd₁⟩ := (visitF_pres hargs).1.2.1
      obtain ⟨d₂, hd₂⟩ := (visitF_pres hbody).1.2.1
      refine ⟨"lambda" ++ d₁ ++ (": " ++ d₂), ?_⟩
      rw [render_popVisit, render_write, hd₂, render_write, hd₁,
        render_write, render_write, render_pushVisit]
      simp only [String.append_assoc]
    · simp only [if_true] at h
      obtain ⟨s₂, hb, rfl⟩ := emap_ok h
      obtain ⟨s₃, hargs, hg⟩ := eseq_ok hb
      obtain ⟨s₄, hbody, hfin⟩ := eseq_ok hg
      obtain rfl := Except.ok.inj hfin
      obtain ⟨d₁, hd₁⟩ := (visitF_pres hargs).1.2.1
      obtain ⟨d₂, hd₂⟩ := (visitF_pres hbody).1.2.1
      refine ⟨"lambda" ++ " " ++ d₁ ++ (": " ++ d₂), ?_⟩
      rw [render_popVisit, render_write, hd₂, render_write, hd₁,
        render_write, render_write, render_write, render_pushVisit]
      simp only [String.append_assoc]


theorem ifExpParenHelper {cfg : Config} {f : Nat} {t b o : Node} {s s' : DState}
    (hsp : ifExpShouldParenthesize (.IfExp t b o) s.node_stack.getLast? = true)
    (h : visitF cfg f (.IfExp t b o) s = .ok s') :
    ∃ mid, render s' = render s ++ ("(" ++ mid ++ ")") := by
  cases f with
  | zero => simp [visitF] at h
  | succ f =>
    simp only [visitF] at h
    rw [get_parent_push, hsp] at h
    simp only [if_true] at h
    obtain ⟨s₂, hb, rfl⟩ := emap_ok h
    obtain ⟨s₃, hbody, hg⟩ := eseq_ok hb
    obtain ⟨s₄, htest, hg₂⟩ := eseq_ok hg
    obtain ⟨s₅, hor, hfin⟩ := eseq_ok hg₂
    obtain rfl := Except.ok.inj hfin
    obtain ⟨d₁, hd₁⟩ := (visitF_pres hbody).1.2.1
    obtain ⟨d₂, hd₂⟩ := (visitF_pres htest).1.2.1
    obtain ⟨d₃, hd₃⟩ := (visitF_pres hor).1.2.1
    refine ⟨d₁ ++ (" if " ++ (d₂ ++ (" else " ++ d₃))), ?_⟩
    rw [render_popVisit, render_write, hd₃, render_write, hd₂, render_write,
      hd₁, render_write, render_pushVisit]
    simp only [String.append_assoc]

/-- C3: an anonymous-function (`Lambda`) or ternary-conditional (`IfExp`)
expression whose parent on the ancestry stack is a binary, unary or
comparison operator, or a call, attribute access or subscript (so the
child is its operand or callee/base), is emitted wrapped in parentheses;
an `IfExp` that is the `test` or `body` of an enclosing `IfExp` likewise. -/
theorem C3_lambda_ifexp_parens :
    (∀ (cfg : Config) (f : Nat) (args body : Node) (s s' : DState) (p : Node),
      s.node_stack.getLast? = some p → operatorParentKind p = true →
      visitF cfg f (.Lambda args body) s = .ok s' →
      ∃ mid, render s' = render s ++ ("(" ++ mid ++ ")")) ∧
    (∀ (cfg : Config) (f : Nat) (t b o : Node) (s s' : DState) (p : Node),
      s.node_stack.getLast? = some p → operatorParentKind p = true →
      visitF cfg f (.IfExp t b o) s = .ok s' →
      ∃ mid, render s' = render s ++ ("(" ++ mid ++ ")")) ∧
    (∀ (cfg : Config) (f : Nat) (t b o pt pb po : Node) (s s' : DState),
      s.node_stack.getLast? = some (.IfExp pt pb po) →
      (Node.IfExp t b o = pt ∨ Node.IfExp t b o = pb) →
      visitF cfg f (.IfExp t b o) s = .ok s' →
      ∃ mid, render s' = render s ++ ("(" ++ mid ++ ")")) := by
  refine ⟨?_, ?_, ?_⟩
  · intro cfg f args body s s' p hp hk h
    exact lambdaParenHelper (by rw [hp]; exact lambdaParen_of_kind hk) h
  · intro cfg f t b o s s' p hp hk h
    exact ifExpParenHelper (by rw [hp]; exact ifExpParen_of_kind _ hk) h
  · intro cfg f t b o pt pb po s s' hp hpos h
    refine ifExpParenHelper (by
      rw [hp]
      show (Node.beq (.IfExp t b o) pt || Node.beq (.IfExp t b o) pb) = true
      rcases hpos with hrfl | hrfl
      · rw [← hrfl, Node.beq_refl]
        simp
      · rw [← hrfl, Node.beq_refl]
        simp) h

/-- Witness for C3 at concrete inputs: a lambda under a `BinOp` parent and
a ternary under a ternary parent's test position are parenthesized. -/
theorem C3_lambda_ifexp_parens_witness :
    ∃ mid₁ mid₂ s₁ s₂,
      visitF { indentation := 4, max_line_length := 100 } 50
        (.Lambda (.arguments [] [] none none) (.Num 1))
        { initState with node_stack := [.BinOp (.Num 1) .Add (.Num 2)] } = .ok s₁ ∧
      render s₁ = render { initState with node_stack := [.BinOp (.Num 1) .Add (.Num 2)] }
        ++ ("(" ++ mid₁ ++ ")") ∧
      visitF { indentation := 4, max_line_length := 100 } 50
        (.IfExp (.Name "a") (.Name "b") (.Name "c"))
        { initState with node_stack :=
          [.IfExp (.IfExp (.Name "a") (.Name "b") (.Name "c")) (.Name "d") (.Name "e")] }
        = .ok s₂ ∧
      render s₂ = render { initState with node_stack :=
          [.IfExp (.IfExp (.Name "a") (.Name "b") (.Name "c")) (.Name "d") (.Name "e")] }
        ++ ("(" ++ mid₂ ++ ")") := by
  obtain ⟨mid₁, h₁⟩ := C3_lambda_ifexp_parens.1
    { indentation := 4, max_line_length := 100 } 50
    (.arguments [] [] none none) (.Num 1)
    { initState with node_stack := [.BinOp (.Num 1) .Add (.Num 2)] } _
    (.BinOp (.Num 1) .Add (.Num 2)) rfl rfl rfl
  obtain ⟨mid₂, h₂⟩ := C3_lambda_ifexp_parens.2.2
    { indentation := 4, max_line_length := 100 } 50
    (.Name "a") (.Name "b") (.Name "c")
    (.IfExp (.Name "a") (.Name "b") (.Name "c")) (.Name "d") (.Name "e")
    { initState with node_stack :=
      [.IfExp (.IfExp (.Name "a") (.Name "b") (.Name "c")) (.Name "d") (.Name "e")] } _
    rfl (Or.inl rfl) rfl
  exact ⟨mid₁, mid₂, _, _, rfl, h₁, rfl, h₂⟩

@[simp] theorem pushVisit_flag (n : Node) (s : DState) :
    (pushVisit n s).has_unicode_literals = s.has_unicode_literals := rfl

/-- C6: order-dependent compatibility marker.  After a
`from __future__ import unicode_literals` has been emitted in the same
traversal, every later `Str` whose value has the Python 2 native type
`str` is written with a `b` marker before its repr; `unicode`-typed values
and any literal emitted while the flag is still clear get no marker.
The import directive sets the flag, no visit ever clears it, and each
`decompile` call starts with it clear. -/
theorem C6_unicode_literals_marker :
    (∀ (cfg : Config) (f : Nat) (v : String) (s s' : DState),
      s.has_unicode_literals = true →
      visitF cfg f (.Str true v) s = .ok s' →
      render s' = render s ++ ("b" ++ reprStrLit true v)) ∧
    (∀ (cfg : Config) (f : Nat) (v : String) (s s' : DState),
      s.has_unicode_literals = true →
      visitF cfg f (.Str false v) s = .ok s' →
      render s' = render s ++ reprStrLit false v) ∧
    (∀ (cfg : Config) (f : Nat) (k : Bool) (v : String) (s s' : DState),
      s.has_unicode_literals = false →
      visitF cfg f (.Str k v) s = .ok s' →
      render s' = render s ++ reprStrLit k v) ∧
    (∀ (cfg : Config) (f : Nat) (names : List Node) (level : Nat) (s s' : DState),
      names.any isUnicodeLiteralsAlias = true →
      visitF cfg f (.ImportFrom "__future__" names level) s = .ok s' →
      s'.has_unicode_literals = true) ∧
    (∀ (cfg : Config) (f : Nat) (n : Node) (s s' : DState),
      s.has_unicode_literals = true →
      visitF cfg f n s = .ok s' → s'.has_unicode_literals = true) ∧
    (initState.has_unicode_literals = false) ∧
    (decompileDefault (.Module [.Expr (.Str true "early"),
        .ImportFrom "__future__" [.alias "unicode_literals" none] 0,
        .Expr (.Str true "late"), .Expr (.Str false "u")]) =
      .ok "'early'\nfrom __future__ import unicode_literals\nb'late'\nu'u'\n") := by
  refine ⟨?_, ?_, ?_, ?_, ?_, rfl, by rfl⟩
  · intro cfg f v s s' hu h
    cases f with
    | zero => simp [visitF] at h
    | succ f =>
      simp only [visitF, pushVisit_flag, hu, Bool.true_and, if_true] at h
      simp only [emap_ok_simp] at h
      obtain rfl := Except.ok.inj h
      rw [render_popVisit, render_write, render_write, render_pushVisit,
        String.append_assoc]
  · intro cfg f v s s' hu h
    cases f with
    | zero => simp [visitF] at h
    | succ f =>
      simp only [visitF, pushVisit_flag, hu, Bool.and_false, Bool.false_eq_true,
        if_false] at h
      simp only [emap_ok_simp] at h
      obtain rfl := Except.ok.inj h
      rw [render_popVisit, render_write, render_pushVisit]
  · intro cfg f k v s s' hu h
    cases f with
    | zero => simp [visitF] at h
    | succ f =>
      simp only [visitF, pushVisit_flag, hu, Bool.false_and, Bool.false_eq_true,
        if_false] at h
      simp only [emap_ok_simp] at h
      obtain rfl := Except.ok.inj h
      rw [render_popVisit, render_write, render_pushVisit]
  · intro cfg f names level s s' ha h
    cases f with
    | zero => simp [visitF] at h
    | succ f =>
      simp only [visitF, ha] at h
      simp only [beq_self_eq_true, Bool.true_and, if_true] at h
      obtain ⟨s₂, hb, rfl⟩ := emap_ok h
      obtain ⟨s₃, hw, rfl⟩ := emap_ok hb
      have hflag := (writeExpressionListF_pres hw).1.2.2.2.1
      have : s₃.has_unicode_literals = true := hflag rfl
      exact this
  · intro cfg f n s s' hu h
    exact (visitF_pres h).1.2.2.2.1 hu

/-- C10: `visit_FunctionDef` first closes the (empty) current line,
producing one blank line before its decorator lines or `def` header;
`visit_ClassDef` produces two; this holds even for the first statement of
a module, so such modules decompile to output starting with blank
line(s). -/
theorem C10_blank_lines_before_defs :
    (∀ (cfg : Config) (f : Nat) (name : String) (dec : List Node) (args : Node)
        (body : List Node) (s s' : DState),
      s.current_line = [] →
      visitF cfg f (.FunctionDef name dec args body) s = .ok s' →
      (∃ ls, s'.lines = s.lines ++ ("\n" :: ls)) ∧
      (∃ rest, render s' = render s ++ ("\n" ++ (spaces s.current_indentation ++
        ((if dec.isEmpty then "def " ++ name ++ "(" else "@") ++ rest))))) ∧
    (∀ (cfg : Config) (f : Nat) (name : String) (dec : List Node)
        (bases : List Node) (body : List Node) (s s' : DState),
      s.current_line = [] →
      visitF cfg f (.ClassDef name dec bases body) s = .ok s' →
      (∃ ls, s'.lines = s.lines ++ ("\n" :: "\n" :: ls)) ∧
      (∃ rest, render s' = render s ++ ("\n" ++ ("\n" ++ (spaces s.current_indentation ++
        ((if dec.isEmpty then "class " ++ name ++ "(" else "@") ++ rest)))))) ∧
    (decompileDefault (.Module [.FunctionDef "f" [] (.arguments [] [] none none)
        [.Pass]]) = .ok "\ndef f():\n    pass\n") ∧
    (decompileDefault (.Module [.ClassDef "C" [] [] [.Pass]]) =
      .ok "\n\nclass C():\n    pass\n") := by
  refine ⟨?_, ?_, by rfl, by rfl⟩
  · intro cfg f name dec args body s s' hcl h
    cases f with
    | zero => simp [visitF] at h
    | succ f =>
      simp only [visitF] at h
      obtain ⟨s₂, hb, rfl⟩ := emap_ok h
      obtain ⟨s₃, hdec, hg⟩ := eseq_ok hb
      obtain ⟨s₄, hargs, hsuite⟩ := eseq_ok hg
      have hPnl : (write_newline (pushVisit (.FunctionDef name dec args body) s)).lines
          = s.lines ++ ["\n"] := by
        show s.lines ++ [joinStr s.current_line ++ "\n"] = _
        rw [hcl]; rfl
      have hPr : render (write_newline (pushVisit (.FunctionDef name dec args body) s))
          = render s ++ "\n" := by
        rw [render_write_newline, render_pushVisit]
      have hPc : (write_newline (pushVisit (.FunctionDef name dec args body) s)).current_indentation
          = s.current_indentation := rfl
      have htail : Preserves s₃ s₂ :=
        ((((pres_write_indentation _).trans (pres_write _ _)).trans
          (visitF_pres hargs)).trans
          ((pres_write _ _).trans (pres_write_newline _))).trans
          (writeSuiteF_pres hsuite)
      have hmid : Preserves (write_newline (pushVisit (.FunctionDef name dec args body) s)) s₃ :=
        decoratorLoopF_pres hdec
      constructor
      · obtain ⟨l₁, hl₁⟩ := (hmid.trans htail).1.1
        refine ⟨l₁, ?_⟩
        show s₂.lines = _
        rw [hl₁, hPnl, List.append_assoc]
        rfl
      · cases dec with
        | nil =>
          have hs₃ : s₃ = write_newline (pushVisit (.FunctionDef name [] args body) s) := by
            cases f with
            | zero => simp [decoratorLoopF] at hdec
            | succ f' =>
              simp only [decoratorLoopF] at hdec
              exact (Except.ok.inj hdec).symm
          subst hs₃
          have hhead : Preserves
              (write ("def " ++ name ++ "(") (write_indentation
                (write_newline (pushVisit (.FunctionDef name [] args body) s)))) s₂ :=
            ((visitF_pres hargs).trans
              ((pres_write _ _).trans (pres_write_newline _))).trans
              (writeSuiteF_pres hsuite)
          obtain ⟨d, hd⟩ := hhead.1.2.1
          refine ⟨d, ?_⟩
          rw [render_popVisit, hd, render_write, render_write_indentation, hPc, hPr]
          simp [String.append_assoc, List.isEmpty]
        | cons d ds =>
          cases f with
          | zero => simp [decoratorLoopF] at hdec
          | succ f' =>
            simp only [decoratorLoopF] at hdec
            obtain ⟨sd, hd, hrest⟩ := eseq_ok hdec
            have hhead : Preserves
                (write "@" (write_indentation
                  (write_newline (pushVisit (.FunctionDef name (d :: ds) args body) s)))) s₂ :=
              (((visitF_pres hd).trans ((pres_write_newline _).trans
                (decoratorLoopF_pres hrest))).trans htail)
            obtain ⟨dd, hdd⟩ := hhead.1.2.1
            refine ⟨dd, ?_⟩
            rw [render_popVisit, hdd, render_write, render_write_indentation, hPc, hPr]
            simp [String.append_assoc, List.isEmpty]
  · intro cfg f name dec bases body s s' hcl h
    cases f with
    | zero => simp [visitF] at h
    | succ f =>
      simp only [visitF] at h
      obtain ⟨s₂, hb, rfl⟩ := emap_ok h
      obtain ⟨s₃, hdec, hg⟩ := eseq_ok hb
      obtain ⟨s₄, hbases, hsuite⟩ := eseq_ok hg
      have hPnl : (write_newline (write_newline
          (pushVisit (.ClassDef name dec bases body) s))).lines
          = s.lines ++ ["\n", "\n"] := by
        show (s.lines ++ [joinStr s.current_line ++ "\n"]) ++ [joinStr [] ++ "\n"] = _
        rw [hcl]
        simp [joinStr]
      have hPr : render (write_newline (write_newline
          (pushVisit (.ClassDef name dec bases body) s)))
          = render s ++ "\n" ++ "\n" := by
        rw [render_write_newline, render_write_newline, render_pushVisit]
      have hPc : (write_newline (write_newline
          (pushVisit (.ClassDef name dec bases body) s))).current_indentation
          = s.current_indentation := rfl
      have htail : Preserves s₃ s₂ :=
        ((((pres_write_indentation _).trans (pres_write _ _)).trans
          (writeExpressionListF_pres hbases)).trans
          ((pres_write _ _).trans (pres_write_newline _))).trans
          (writeSuiteF_pres hsuite)
      have hmid : Preserves (write_newline (write_newline
          (pushVisit (.ClassDef name dec bases body) s))) s₃ :=
        decoratorLoopF_pres hdec
      constructor
      · obtain ⟨l₁, hl₁⟩ := (hmid.trans htail).1.1
        refine ⟨l₁, ?_⟩
        show s₂.lines = _
        rw [hl₁, hPnl, List.append_assoc]
        rfl
      · cases dec with
        | nil =>
          have hs₃ : s₃ = write_newline (write_newline
              (pushVisit (.ClassDef name [] bases body) s)) := by
            cases f with
            | zero => simp [decoratorLoopF] at hdec
            | succ f' =>
              simp only [decoratorLoopF] at hdec
              exact (Except.ok.inj hdec).symm
          subst hs₃
          have hhead : Preserves
              (write ("class " ++ name ++ "(") (write_indentation
                (write_newline (write_newline
                  (pushVisit (.ClassDef name [] bases body) s))))) s₂ :=
            ((writeExpressionListF_pres hbases).trans
              ((pres_write _ _).trans (pres_write_newline _))).trans
              (writeSuiteF_pres hsuite)
          obtain ⟨d, hd⟩ := hhead.1.2.1
          refine ⟨d, ?_⟩
          rw [render_popVisit, hd, render_write, render_write_indentation, hPc, hPr]
          simp [String.append_assoc, List.isEmpty]
          rfl
        | cons d ds =>
          cases f with
          | zero => simp [decoratorLoopF] at hdec
          | succ f' =>
            simp only [decoratorLoopF] at hdec
            obtain ⟨sd, hd, hrest⟩ := eseq_ok hdec
            have hhead : Preserves
                (write "@" (write_indentation
                  (write_newline (write_newline
                    (pushVisit (.ClassDef name (d :: ds) bases body) s))))) s₂ :=
              (((visitF_pres hd).trans ((pres_write_newline _).trans
                (decoratorLoopF_pres hrest))).trans htail)
            obtain ⟨dd, hdd⟩ := hhead.1.2.1
            refine ⟨dd, ?_⟩
            rw [render_popVisit, hdd, render_write, render_write_indentation, hPc, hPr]
            simp [String.append_assoc, List.isEmpty]
            rfl

/-- The claim-side description of a pure inline rendering: separator, then
node, for every node, with no width check and no checkpointing. -/
def inlineWriteF (cfg : Config) (separator : String) :
    Nat → List Node → Bool → DState → Except Err DState
  | 0, _, _, _ => .error .fuel
  | _+1, [], _, s => .ok s
  | f+1, node :: rest, first, s =>
    let s := if first then s else write separator s
    eseq (visitF cfg f node s) (inlineWriteF cfg separator f rest false)

/-- An inline attempt that finished without aborting is exactly the plain
inline rendering: the checkpoint machinery is invisible. -/
theorem welAttemptF_complete_inline {cfg : Config} :
    ∀ (f : Nat) (nodes : List Node) (sep : String) (an fst : Bool) (s s₁ : DState),
    welAttemptF cfg f nodes sep an fst s = .ok (false, s₁) →
    inlineWriteF cfg sep f nodes fst s = .ok s₁ := by
  intro f
  induction f with
  | zero => intro nodes sep an fst s s₁ h; simp [welAttemptF] at h
  | succ f ih =>
    intro nodes sep an fst s s₁ h
    cases nodes with
    | nil =>
      simp only [welAttemptF] at h
      obtain hh := Except.ok.inj h
      obtain ⟨-, rfl⟩ := Prod.mk.injEq .. ▸ hh
      rfl
    | cons n rest =>
      simp only [welAttemptF] at h
      simp only [inlineWriteF]
      cases hv : visitF cfg f n (if fst then s else write sep s) with
      | error e => rw [hv] at h; simp at h
      | ok s₂ =>
        rw [hv] at h
        simp only [eseq_ok_simp] at h ⊢
        split at h
        · obtain hh := Except.ok.inj h
          obtain ⟨hb, -⟩ := Prod.mk.injEq .. ▸ hh
          simp at hb
        · exact ih rest sep an false s₂ s₁ h

/-- An inline attempt aborts only when newlines are allowed and the
in-progress line really exceeds the configured maximum width at the abort
state. -/
theorem welAttemptF_overflow {cfg : Config} :
    ∀ (f : Nat) (nodes : List Node) (sep : String) (an fst : Bool) (s s₁ : DState),
    welAttemptF cfg f nodes sep an fst s = .ok (true, s₁) →
    an = true ∧ cfg.max_line_length < current_line_length s₁ := by
  intro f
  induction f with
  | zero => intro nodes sep an fst s s₁ h; simp [welAttemptF] at h
  | succ f ih =>
    intro nodes sep an fst s s₁ h
    cases nodes with
    | nil =>
      simp only [welAttemptF] at h
      obtain hh := Except.ok.inj h
      obtain ⟨hb, -⟩ := Prod.mk.injEq .. ▸ hh
      simp at hb
    | cons n rest =>
      simp only [welAttemptF] at h
      cases hv : visitF cfg f n (if fst then s else write sep s) with
      | error e => rw [hv] at h; simp at h
      | ok s₂ =>
        rw [hv] at h
        simp only [eseq_ok_simp] at h
        split at h
        next hcond =>
          obtain hh := Except.ok.inj h
          obtain ⟨-, rfl⟩ := Prod.mk.injEq .. ▸ hh
          obtain ⟨ha, hd⟩ := Bool.and_eq_true .. ▸ hcond
          exact ⟨ha, of_decide_eq_true hd⟩
        next => exact ih rest sep an false s₂ s₁ h

theorem joinStr_cons (a : String) (l : List String) :
    joinStr (a :: l) = a ++ joinStr l := rfl

theorem foldr_append_init (toks : List String) (x : String) :
    List.foldr (fun a b => a ++ b) x toks = joinStr toks ++ x := by
  induction toks with
  | nil => simp [joinStr]
  | cons h t ih => simp [joinStr] at ih ⊢; rw [ih, String.append_assoc]

/-- The state at the end of every multi-line element loop has an empty
in-progress line (each iteration closes its line), the original
indentation, and, when every element renders without emitting lines of its
own, exactly one completed line per element, each starting with the
indentation in force in the loop. -/
theorem welMultiF_lines {cfg : Config} :
    ∀ (f : Nat) (nodes : List Node) (sep : String) (fs : Bool) (s s' : DState),
    (∀ x ∈ nodes, ∀ (g : Nat) (st st' : DState), visitF cfg g x st = .ok st' →
      st'.lines = st.lines ∧ ∃ toks, st'.current_line = st.current_line ++ toks) →
    s.current_line = [] →
    welMultiF cfg f nodes sep fs s = .ok s' →
    ∃ rs : List String, rs.length = nodes.length ∧
      s'.lines = s.lines ++ rs.map (fun r => spaces s.current_indentation ++ (r ++ "\n")) ∧
      s'.current_line = [] ∧ s'.current_indentation = s.current_indentation := by
  intro f
  induction f with
  | zero => intro nodes sep fs s s' hH hcl h; simp [welMultiF] at h
  | succ f ih =>
    intro nodes sep fs s s' hH hcl h
    cases nodes with
    | nil =>
      simp only [welMultiF] at h
      obtain rfl := Except.ok.inj h
      exact ⟨[], rfl, by simp, hcl, rfl⟩
    | cons n rest =>
      simp only [welMultiF] at h
      cases hv : visitF cfg f n (write_indentation s) with
      | error e => rw [hv] at h; simp at h
      | ok s₁ =>
        rw [hv] at h
        simp only at h
        obtain ⟨hlines, toks, htoks⟩ := hH n (by simp) f _ _ hv
        have hcl₁ : s₁.current_line = spaces s.current_indentation :: toks := by
          rw [htoks]
          show (write (spaces s.current_indentation) s).current_line ++ toks = _
          simp [write, hcl]
        have hl₀ : s₁.lines = s.lines := by
          rw [hlines]; rfl
        have hwl : (write_newline (if fs || !rest.isEmpty then write sep s₁ else s₁)).lines
            = s.lines ++ [spaces s.current_indentation ++
              ((joinStr toks ++ (if fs || !rest.isEmpty then sep else "")) ++ "\n")] := by
          cases hc : (fs || !rest.isEmpty)
          · simp only [hc, Bool.false_eq_true, if_false]
            rw [write_newline_lines, hl₀, hcl₁, joinStr_cons]
            simp [String.append_assoc]
          · simp only [hc, eq_self_iff_true, if_true]
            rw [write_newline_lines]
            show s₁.lines ++ [joinStr (s₁.current_line ++ [sep]) ++ "\n"] = _
            rw [hl₀, hcl₁,
              show ((spaces s.current_indentation :: toks) ++ [sep]) =
                spaces s.current_indentation :: (toks ++ [sep]) from rfl,
              joinStr_cons, joinStr_append, joinStr_singleton]
            simp [String.append_assoc]
        have hci : (write_newline (if fs || !rest.isEmpty then write sep s₁ else s₁)).current_indentation
            = s.current_indentation := by
          have h₁ : s₁.current_indentation = (write_indentation s).current_indentation :=
            (visitF_pres hv).2
          cases hc : (fs || !rest.isEmpty) <;>
            simp [write_newline, write, write_indentation] at h₁ ⊢ <;> exact h₁
        obtain ⟨rs, hlen, hls, hcl', hci'⟩ := ih rest sep fs _ s'
          (fun x hx => hH x (by simp [hx])) (by simp [write_newline]) h
        refine ⟨(joinStr toks ++ (if fs || !rest.isEmpty then sep else "")) :: rs,
          by simp [hlen], ?_, hcl', by rw [hci', hci]⟩
        rw [hls, hwl, hci]
        simp [String.append_assoc]


/-- Layout of the multi-line fallback: one opening line (the checkpointed
in-progress line, plus `(` when delimiters are required), then, when every
element renders without emitting lines of its own, one line per element at
one additional indentation level, and an in-progress closing line at the
original indentation holding the closing delimiter when required. -/
theorem welFallbackF_layout {cfg : Config} (f : Nat) (nodes : List Node)
    (sep : String) (np fs : Bool) (s s' : DState)
    (hH : ∀ x ∈ nodes, ∀ (g : Nat) (st st' : DState), visitF cfg g x st = .ok st' →
      st'.lines = st.lines ∧ ∃ toks, st'.current_line = st.current_line ++ toks)
    (h : welFallbackF cfg (f+1) nodes sep np fs s = .ok s') :
    ∃ rs : List String, rs.length = nodes.length ∧
      s'.lines = s.lines ++
        ((joinStr (if np then s.current_line ++ ["("] else s.current_line) ++ "\n") ::
          rs.map (fun r => spaces (s.current_indentation + cfg.indentation) ++ (r ++ "\n"))) ∧
      s'.current_line = (if np then [spaces s.current_indentation, ")"]
        else [spaces s.current_indentation]) ∧
      s'.current_indentation = s.current_indentation := by
  simp only [welFallbackF] at h
  cases np with
  | false =>
    simp only [Bool.false_eq_true, if_false] at h ⊢
    cases hM : welMultiF cfg f nodes (rstrip sep) fs
        (add_indentation cfg (write_newline s)) with
    | error e => rw [hM] at h; simp at h
    | ok s₁ =>
      rw [hM] at h
      simp only at h
      obtain rfl := Except.ok.inj h
      obtain ⟨rs, hlen, hls, hcl, hci⟩ := welMultiF_lines f nodes (rstrip sep) fs _ _
        hH (by simp [add_indentation, write_newline]) hM
      have hciv : s₁.current_indentation = s.current_indentation + cfg.indentation := by
        rw [hci]; rfl
      refine ⟨rs, hlen, ?_, ?_, ?_⟩
      · show s₁.lines = _
        rw [hls]
        show (add_indentation cfg (write_newline s)).lines ++ _ = _
        have : (add_indentation cfg (write_newline s)).current_indentation
            = s.current_indentation + cfg.indentation := rfl
        rw [this]
        simp [add_indentation, write_newline, String.append_assoc]
      · show (write_indentation (sub_indentation cfg s₁)).current_line = _
        simp [write_indentation, write, sub_indentation, hcl, hciv]
      · show (write_indentation (sub_indentation cfg s₁)).current_indentation = _
        simp [write_indentation, write, sub_indentation, hciv]
  | true =>
    simp only [if_true] at h ⊢
    cases hM : welMultiF cfg f nodes (rstrip sep) fs
        (add_indentation cfg (write_newline (write "(" s))) with
    | error e => rw [hM] at h; simp at h
    | ok s₁ =>
      rw [hM] at h
      simp only at h
      obtain rfl := Except.ok.inj h
      obtain ⟨rs, hlen, hls, hcl, hci⟩ := welMultiF_lines f nodes (rstrip sep) fs _ _
        hH (by simp [add_indentation, write_newline]) hM
      have hciv : s₁.current_indentation = s.current_indentation + cfg.indentation := by
        rw [hci]; rfl
      refine ⟨rs, hlen, ?_, ?_, ?_⟩
      · show s₁.lines = _
        rw [hls]
        show (add_indentation cfg (write_newline (write "(" s))).lines ++ _ = _
        have : (add_indentation cfg (write_newline (write "(" s))).current_indentation
            = s.current_indentation + cfg.indentation := rfl
        rw [this]
        simp [add_indentation, write_newline, write, String.append_assoc]
      · show (write ")" (write_indentation (sub_indentation cfg s₁))).current_line = _
        simp [write_indentation, write, sub_indentation, hcl, hciv]
      · show (write ")" (write_indentation (sub_indentation cfg s₁))).current_indentation = _
        simp [write_indentation, write, sub_indentation, hciv]

/-- C2: behaviour of `write_expression_list` with newlines permitted.
If the inline attempt finishes without the in-progress line ever exceeding
`max_line_length`, the inline result is kept and equals a plain
separator-joined rendering with no checkpoint machinery.  If, after
visiting some element, the line exceeds the width, the attempt aborts with
the line really over the limit, the buffer is restored exactly to its
checkpoint (same completed lines, same in-progress line), and the result
is the multi-line fallback from that restored state, which places each
element on its own line one indentation level deeper with the closing
delimiter at the original indentation (`welFallbackF_layout`). -/
theorem C2_write_expression_list_overflow :
    (∀ (cfg : Config) (f : Nat) (nodes : List Node) (sep : String) (np fs : Bool)
        (s s₁ : DState),
      welAttemptF cfg f nodes sep true true s = .ok (false, s₁) →
      writeExpressionListF cfg (f+1) nodes sep true np fs s = .ok s₁ ∧
      inlineWriteF cfg sep f nodes true s = .ok s₁) ∧
    (∀ (cfg : Config) (f : Nat) (nodes : List Node) (sep : String) (np fs : Bool)
        (s s₁ : DState),
      welAttemptF cfg f nodes sep true true s = .ok (true, s₁) →
      cfg.max_line_length < current_line_length s₁ ∧
      writeExpressionListF cfg (f+1) nodes sep true np fs s =
        welFallbackF cfg f nodes sep np fs
          (rollbackState s.lines.length s.current_line s₁) ∧
      (rollbackState s.lines.length s.current_line s₁).lines = s.lines ∧
      (rollbackState s.lines.length s.current_line s₁).current_line = s.current_line) ∧
    (∀ (cfg : Config) (f : Nat) (nodes : List Node) (sep : String) (np fs : Bool)
        (s s' : DState),
      (∀ x ∈ nodes, ∀ (g : Nat) (st st' : DState), visitF cfg g x st = .ok st' →
        st'.lines = st.lines ∧ ∃ toks, st'.current_line = st.current_line ++ toks) →
      welFallbackF cfg (f+1) nodes sep np fs s = .ok s' →
      ∃ rs : List String, rs.length = nodes.length ∧
        s'.lines = s.lines ++
          ((joinStr (if np then s.current_line ++ ["("] else s.current_line) ++ "\n") ::
            rs.map (fun r => spaces (s.current_indentation + cfg.indentation) ++ (r ++ "\n"))) ∧
        s'.current_line = (if np then [spaces s.current_indentation, ")"]
          else [spaces s.current_indentation]) ∧
        s'.current_indentation = s.current_indentation) := by
  refine ⟨?_, ?_, ?_⟩
  · intro cfg f nodes sep np fs s s₁ hA
    constructor
    · simp only [writeExpressionListF]
      rw [hA]
    · exact welAttemptF_complete_inline f nodes sep true true s s₁ hA
  · intro cfg f nodes sep np fs s s₁ hA
    refine ⟨(welAttemptF_overflow f nodes sep true true s s₁ hA).2, ?_, ?_, rfl⟩
    · simp only [writeExpressionListF]
      rw [hA]
    · exact rollback_exact (welAttemptF_pres hA).1.1
  · intro cfg f nodes sep np fs s s' hH h
    exact welFallbackF_layout f nodes sep np fs s s' hH h

/-- The tree contains a node kind for which the dispatcher finds no
`visit_<Kind>` method (`unknown`, or a literal `_CallArgs` object). -/
def hasUnsupported : Node → Bool
  | .Module b => go b
  | .Expr v => hasUnsupported v
  | .FunctionDef _ d a b => go d || hasUnsupported a || go b
  | .ClassDef _ d ba b => go d || go ba || go b
  | .Pass => false
  | .ImportFrom _ ns _ => go ns
  | .alias _ _ => false
  | .Name _ => false
  | .Num _ => false
  | .Str _ _ => false
  | .BinOp l _ r => hasUnsupported l || hasUnsupported r
  | .UnaryOp _ v => hasUnsupported v
  | .BoolOp _ vs => go vs
  | .Compare l _ cs => hasUnsupported l || go cs
  | .Call f a k st kw => hasUnsupported f || go a || go k || ob st || ob kw
  | .keyword _ v => hasUnsupported v
  | .Attribute v _ => hasUnsupported v
  | .Subscript v sl => hasUnsupported v || hasUnsupported sl
  | .Index v => hasUnsupported v
  | .Lambda a b => hasUnsupported a || hasUnsupported b
  | .IfExp t b o => hasUnsupported t || hasUnsupported b || hasUnsupported o
  | .arguments a d _ _ => go a || go d
  | .KeywordArg a v => hasUnsupported a || hasUnsupported v
  | .StarArg a => hasUnsupported a
  | .DoubleStarArg a => hasUnsupported a
  | .callArgs => true
  | .unknown _ => true
where
  go : List Node → Bool
    | [] => false
    | x :: xs => hasUnsupported x || go xs
  ob : Option Node → Bool
    | none => false
    | some x => hasUnsupported x

/-- Well-formedness, as far as the traversal's reach is concerned: a
`Compare` has as many comparators as operators (they are walked zipped)
and an `arguments` has no more defaults than positional arguments (the
trailing arguments are zipped with the defaults). -/
def wfNode : Node → Bool
  | .Module b => go b
  | .Expr v => wfNode v
  | .FunctionDef _ d a b => go d && wfNode a && go b
  | .ClassDef _ d ba b => go d && go ba && go b
  | .Pass => true
  | .ImportFrom _ ns _ => go ns
  | .alias _ _ => true
  | .Name _ => true
  | .Num _ => true
  | .Str _ _ => true
  | .BinOp l _ r => wfNode l && wfNode r
  | .UnaryOp _ v => wfNode v
  | .BoolOp _ vs => go vs
  | .Compare l ops cs => (ops.length == cs.length) && wfNode l && go cs
  | .Call f a k st kw => wfNode f && go a && go k && ob st && ob kw
  | .keyword _ v => wfNode v
  | .Attribute v _ => wfNode v
  | .Subscript v sl => wfNode v && wfNode sl
  | .Index v => wfNode v
  | .Lambda a b => wfNode a && wfNode b
  | .IfExp t b o => wfNode t && wfNode b && wfNode o
  | .arguments a d _ _ => decide (d.length ≤ a.length) && go a && go d
  | .KeywordArg a v => wfNode a && wfNode v
  | .StarArg a => wfNode a
  | .DoubleStarArg a => wfNode a
  | .callArgs => true
  | .unknown _ => true
where
  go : List Node → Bool
    | [] => true
    | x :: xs => wfNode x && go xs
  ob : Option Node → Bool
    | none => true
    | some x => wfNode x

theorem hU_go_iff (l : List Node) :
    hasUnsupported.go l = true ↔ ∃ x ∈ l, hasUnsupported x = true := by
  induction l with
  | nil => simp [hasUnsupported.go]
  | cons x xs ih =>
    show (hasUnsupported x || hasUnsupported.go xs) = true ↔ _
    simp [Bool.or_eq_true, ih]

theorem wf_go_iff (l : List Node) :
    wfNode.go l = true ↔ ∀ x ∈ l, wfNode x = true := by
  induction l with
  | nil => simp [wfNode.go]
  | cons x xs ih =>
    show (wfNode x && wfNode.go xs) = true ↔ _
    simp [Bool.and_eq_true, ih]

theorem zip_mem_right {α β : Type} :
    ∀ (l₁ : List α) (l₂ : List β), l₁.length = l₂.length →
    ∀ x ∈ l₂, ∃ a, (a, x) ∈ l₁.zip l₂ := by
  intro l₁
  induction l₁ with
  | nil => intro l₂ hl x hx; cases l₂ <;> simp_all
  | cons a as ih =>
    intro l₂ hl x hx
    cases l₂ with
    | nil => simp at hx
    | cons b bs =>
      simp only [List.mem_cons] at hx
      rcases hx with rfl | hx
      · exact ⟨a, by simp⟩
      · obtain ⟨a', ha'⟩ := ih bs (by simpa using hl) x hx
        exact ⟨a', by simp [ha']⟩

theorem zip_mem_left {α β : Type} :
    ∀ (l₁ : List α) (l₂ : List β), l₁.length = l₂.length →
    ∀ x ∈ l₁, ∃ b, (x, b) ∈ l₁.zip l₂ := by
  intro l₁
  induction l₁ with
  | nil => intro l₂ hl x hx; simp at hx
  | cons a as ih =>
    intro l₂ hl x hx
    cases l₂ with
    | nil => simp at hl
    | cons b bs =>
      simp only [List.mem_cons] at hx
      rcases hx with rfl | hx
      · exact ⟨b, by simp⟩
      · obtain ⟨b', hb'⟩ := ih bs (by simpa using hl) x hx
        exact ⟨b', by simp [hb']⟩

/-- A well-formed bad positional argument or default reappears, wrapped if
need be, as a well-formed bad element of the list `visit_arguments`
builds. -/
theorem argumentsList_bad (args defaults : List Node) (va kw : Option String)
    (hwa : ∀ x ∈ args, wfNode x = true) (hwd : ∀ x ∈ defaults, wfNode x = true)
    (hlen : defaults.length ≤ args.length)
    (hbad : (∃ x ∈ args, hasUnsupported x = true) ∨
            (∃ x ∈ defaults, hasUnsupported x = true)) :
    ∃ x ∈ argumentsList args defaults va kw,
      wfNode x = true ∧ hasUnsupported x = true := by
  have hdrop : (args.drop (args.length - defaults.length)).length = defaults.length := by
    simp [List.length_drop]
    omega
  rcases hbad with ⟨x, hx, hbx⟩ | ⟨x, hx, hbx⟩
  · rcases List.mem_append.mp
      ((List.take_append_drop (args.length - defaults.length) args) ▸ hx) with htk | hdr
    · refine ⟨x, ?_, hwa x hx, hbx⟩
      unfold argumentsList
      rcases Nat.eq_zero_or_pos defaults.length with h0 | hpos
      · have : defaults = [] := List.length_eq_zero.mp h0
        subst this
        simp only [ne_eq, not_true_eq_false, if_neg, if_pos]
        simp at htk ⊢
        exact Or.inl htk
      · have hne : defaults.length ≠ 0 := Nat.pos_iff_ne_zero.mp hpos
        simp only [hne, ne_eq, not_false_eq_true, if_pos]
        simp [htk]
    · obtain ⟨d, hd⟩ := zip_mem_left _ defaults hdrop x hdr
      refine ⟨Node.KeywordArg x d, ?_, ?_, ?_⟩
      · unfold argumentsList
        have : Node.KeywordArg x d ∈
            ((args.drop (args.length - defaults.length)).zip defaults).map
              (fun p => Node.KeywordArg p.1 p.2) := by
          exact List.mem_map.mpr ⟨(x, d), hd, rfl⟩
        split <;> simp_all
      · have hdm : d ∈ defaults := (List.of_mem_zip hd).2
        show (wfNode x && wfNode d) = true
        simp [hwa x hx, hwd d hdm]
      · show (hasUnsupported x || hasUnsupported d) = true
        simp [hbx]
  · obtain ⟨a, ha⟩ := zip_mem_right _ defaults hdrop x hx
    have ham : a ∈ args.drop (args.length - defaults.length) := (List.of_mem_zip ha).1
    refine ⟨Node.KeywordArg a x, ?_, ?_, ?_⟩
    · unfold argumentsList
      have : Node.KeywordArg a x ∈
          ((args.drop (args.length - defaults.length)).zip defaults).map
            (fun p => Node.KeywordArg p.1 p.2) :=
        List.mem_map.mpr ⟨(a, x), ha, rfl⟩
      split <;> simp_all
    · show (wfNode a && wfNode x) = true
      simp [hwa a (List.mem_of_mem_drop ham), hwd x hx]
    · show (hasUnsupported a || hasUnsupported x) = true
      simp [hbx]


theorem callArgsList_bad (a k : List Node) (st kw : Option Node)
    (hbad : (∃ x ∈ a, wfNode x = true ∧ hasUnsupported x = true) ∨
            (∃ x ∈ k, wfNode x = true ∧ hasUnsupported x = true) ∨
            (∃ sa, st = some sa ∧ wfNode sa = true ∧ hasUnsupported sa = true) ∨
            (∃ kx, kw = some kx ∧ wfNode kx = true ∧ hasUnsupported kx = true)) :
    ∃ x ∈ callArgsList a k st kw, wfNode x = true ∧ hasUnsupported x = true := by
  unfold callArgsList
  rcases hbad with ⟨x, hx, hw, hb⟩ | ⟨x, hx, hw, hb⟩ | ⟨sa, rfl, hw, hb⟩ | ⟨kx, rfl, hw, hb⟩
  · exact ⟨x, by simp [hx], hw, hb⟩
  · exact ⟨x, by simp [hx], hw, hb⟩
  · exact ⟨Node.StarArg sa, by simp, hw, hb⟩
  · exact ⟨Node.DoubleStarArg kx, by simp, hw, hb⟩

/-- A well-formed tree that contains an unsupported node kind is never
rendered successfully: the traversal reaches the node and
`generic_visit` raises.  One simultaneous induction on fuel. -/
theorem badAll (cfg : Config) : ∀ f : Nat,
    (∀ n s s', wfNode n = true → hasUnsupported n = true →
      visitF cfg f n s ≠ .ok s') ∧
    (∀ l s s', (∃ x ∈ l, wfNode x = true ∧ hasUnsupported x = true) →
      visitSeqF cfg f l s ≠ .ok s') ∧
    (∀ l s s', (∃ x ∈ l, wfNode x = true ∧ hasUnsupported x = true) →
      decoratorLoopF cfg f l s ≠ .ok s') ∧
    (∀ l s s', (∃ x ∈ l, wfNode x = true ∧ hasUnsupported x = true) →
      writeSuiteF cfg f l s ≠ .ok s') ∧
    (∀ l sep an np fs s s', (∃ x ∈ l, wfNode x = true ∧ hasUnsupported x = true) →
      writeExpressionListF cfg f l sep an np fs s ≠ .ok s') ∧
    (∀ l sep np fs s s', (∃ x ∈ l, wfNode x = true ∧ hasUnsupported x = true) →
      welFallbackF cfg f l sep np fs s ≠ .ok s') ∧
    (∀ l sep an fst s s', (∃ x ∈ l, wfNode x = true ∧ hasUnsupported x = true) →
      welAttemptF cfg f l sep an fst s ≠ .ok (false, s')) ∧
    (∀ l sep fs s s', (∃ x ∈ l, wfNode x = true ∧ hasUnsupported x = true) →
      welMultiF cfg f l sep fs s ≠ .ok s') ∧
    (∀ (l : List (CmpOpKind × Node)) s s',
      (∃ p ∈ l, wfNode p.2 = true ∧ hasUnsupported p.2 = true) →
      compareTailF cfg f l s ≠ .ok s') := by
  intro f
  induction f with
  | zero =>
    refine ⟨?_, ?_, ?_, ?_, ?_, ?_, ?_, ?_, ?_⟩ <;> intros <;>
      simp [visitF, visitSeqF, decoratorLoopF, writeSuiteF,
        writeExpressionListF, welFallbackF, welAttemptF, welMultiF, compareTailF]
  | succ f ih =>
    obtain ⟨ihV, ihSeq, ihDec, ihSuite, ihWel, ihFall, ihAtt, ihMulti, ihCmp⟩ := ih
    refine ⟨?_, ?_, ?_, ?_, ?_, ?_, ?_, ?_, ?_⟩
    · -- visitF
      intro n s s' hwf hbad h
      cases n with
      | Module body =>
        rw [show wfNode (.Module body) = wfNode.go body from rfl, wf_go_iff] at hwf
        rw [show hasUnsupported (.Module body) = hasUnsupported.go body from rfl,
          hU_go_iff] at hbad
        obtain ⟨x, hx, hbx⟩ := hbad
        simp only [visitF] at h
        obtain ⟨s₂, hb, -⟩ := emap_ok h
        exact ihSeq _ _ _ ⟨x, hx, hwf x hx, hbx⟩ hb
      | Expr v =>
        simp only [visitF] at h
        obtain ⟨s₂, hb, -⟩ := emap_ok h
        obtain ⟨s₃, hv, -⟩ := emap_ok hb
        exact ihV v _ _ hwf hbad hv
      | FunctionDef name dec args body =>
        have hwf' : wfNode.go dec = true ∧ wfNode args = true ∧ wfNode.go body = true := by
          have : (wfNode.go dec && wfNode args && wfNode.go body) = true := hwf
          simp [Bool.and_eq_true] at this
          exact ⟨this.1.1, this.1.2, this.2⟩
        have hbad' : hasUnsupported.go dec = true ∨ hasUnsupported args = true ∨
            hasUnsupported.go body = true := by
          have : (hasUnsupported.go dec || hasUnsupported args || hasUnsupported.go body)
              = true := hbad
          simpa [Bool.or_eq_true, or_assoc] using this
        simp only [visitF] at h
        obtain ⟨s₂, hb, -⟩ := emap_ok h
        obtain ⟨s₃, hdec, hg⟩ := eseq_ok hb
        obtain ⟨s₄, hargs, hsuite⟩ := eseq_ok hg
        rcases hbad' with hd | ha | hbdy
        · obtain ⟨x, hx, hbx⟩ := (hU_go_iff dec).mp hd
          exact ihDec _ _ _ ⟨x, hx, (wf_go_iff dec).mp hwf'.1 x hx, hbx⟩ hdec
        · exact ihV args _ _ hwf'.2.1 ha hargs
        · obtain ⟨x, hx, hbx⟩ := (hU_go_iff body).mp hbdy
          exact ihSuite _ _ _ ⟨x, hx, (wf_go_iff body).mp hwf'.2.2 x hx, hbx⟩ hsuite
      | ClassDef name dec bases body =>
        have hwf' : wfNode.go dec = true ∧ wfNode.go bases = true ∧ wfNode.go body = true := by
          have : (wfNode.go dec && wfNode.go bases && wfNode.go body) = true := hwf
          simp [Bool.and_eq_true] at this
          exact ⟨this.1.1, this.1.2, this.2⟩
        have hbad' : hasUnsupported.go dec = true ∨ hasUnsupported.go bases = true ∨
            hasUnsupported.go body = true := by
          have : (hasUnsupported.go dec || hasUnsupported.go bases ||
              hasUnsupported.go body) = true := hbad
          simpa [Bool.or_eq_true, or_assoc] using this
        simp only [visitF] at h
        obtain ⟨s₂, hb, -⟩ := emap_ok h
        obtain ⟨s₃, hdec, hg⟩ := eseq_ok hb
        obtain ⟨s₄, hbases, hsuite⟩ := eseq_ok hg
        rcases hbad' with hd | hba | hbdy
        · obtain ⟨x, hx, hbx⟩ := (hU_go_iff dec).mp hd
          exact ihDec _ _ _ ⟨x, hx, (wf_go_iff dec).mp hwf'.1 x hx, hbx⟩ hdec
        · obtain ⟨x, hx, hbx⟩ := (hU_go_iff bases).mp hba
          exact ihWel _ _ _ _ _ _ _ ⟨x, hx, (wf_go_iff bases).mp hwf'.2.1 x hx, hbx⟩ hbases
        · obtain ⟨x, hx, hbx⟩ := (hU_go_iff body).mp hbdy
          exact ihSuite _ _ _ ⟨x, hx, (wf_go_iff body).mp hwf'.2.2 x hx, hbx⟩ hsuite
      | Pass => simp [hasUnsupported] at hbad
      | ImportFrom module names level =>
        rw [show wfNode (.ImportFrom module names level) = wfNode.go names from rfl,
          wf_go_iff] at hwf
        rw [show hasUnsupported (.ImportFrom module names level) =
          hasUnsupported.go names from rfl, hU_go_iff] at hbad
        obtain ⟨x, hx, hbx⟩ := hbad
        simp only [visitF] at h
        obtain ⟨s₂, hb, -⟩ := emap_ok h
        obtain ⟨s₃, hw, -⟩ := emap_ok hb
        exact ihWel _ _ _ _ _ _ _ ⟨x, hx, hwf x hx, hbx⟩ hw
      | «alias» name asname => simp [hasUnsupported] at hbad
      | Name id => simp [hasUnsupported] at hbad
      | Num n => simp [hasUnsupported] at hbad
      | Str isStr v => simp [hasUnsupported] at hbad
      | BinOp l op r =>
        have hwf' : wfNode l = true ∧ wfNode r = true := by
          have : (wfNode l && wfNode r) = true := hwf
          simpa [Bool.and_eq_true] using this
        have hbad' : hasUnsupported l = true ∨ hasUnsupported r = true := by
          have : (hasUnsupported l || hasUnsupported r) = true := hbad
          simpa [Bool.or_eq_true] using this
        simp only [visitF] at h
        obtain ⟨s₂, hb, -⟩ := emap_ok h
        obtain ⟨s₃, hl, hg⟩ := eseq_ok hb
        obtain ⟨s₄, hr, -⟩ := eseq_ok hg
        rcases hbad' with hx | hx
        · exact ihV l _ _ hwf'.1 hx hl
        · exact ihV r _ _ hwf'.2 hx hr
      | UnaryOp op v =>
        simp only [visitF] at h
        obtain ⟨s₂, hb, -⟩ := emap_ok h
        obtain ⟨s₃, hv, -⟩ := eseq_ok hb
        exact ihV v _ _ hwf hbad hv
      | BoolOp op values =>
        rw [show wfNode (.BoolOp op values) = wfNode.go values from rfl, wf_go_iff] at hwf
        rw [show hasUnsupported (.BoolOp op values) = hasUnsupported.go values from rfl,
          hU_go_iff] at hbad
        obtain ⟨x, hx, hbx⟩ := hbad
        simp only [visitF] at h
        obtain ⟨s₂, hb, -⟩ := emap_ok h
        obtain ⟨s₃, hw, -⟩ := emap_ok hb
        exact ihWel _ _ _ _ _ _ _ ⟨x, hx, hwf x hx, hbx⟩ hw
      | Compare l ops comparators =>
        have hwf' : ops.length = comparators.length ∧ wfNode l = true ∧
            wfNode.go comparators = true := by
          have : ((ops.length == comparators.length) && wfNode l &&
              wfNode.go comparators) = true := hwf
          simp [Bool.and_eq_true] at this
          exact ⟨by exact_mod_cast this.1.1, this.1.2, this.2⟩
        have hbad' : hasUnsupported l = true ∨ hasUnsupported.go comparators = true := by
          have : (hasUnsupported l || hasUnsupported.go comparators) = true := hbad
          simpa [Bool.or_eq_true] using this
        simp only [visitF] at h
        obtain ⟨s₂, hb, -⟩ := emap_ok h
        obtain ⟨s₃, hl, hg⟩ := eseq_ok hb
        obtain ⟨s₄, hc, -⟩ := emap_ok hg
        rcases hbad' with hx | hx
        · exact ihV l _ _ hwf'.2.1 hx hl
        · obtain ⟨x, hxm, hbx⟩ := (hU_go_iff comparators).mp hx
          obtain ⟨op', hop⟩ := zip_mem_right ops comparators hwf'.1 x hxm
          exact ihCmp _ _ _ ⟨(op', x), hop,
            (wf_go_iff comparators).mp hwf'.2.2 x hxm, hbx⟩ hc
      | Call func args keywords starargs kwargs =>
        have hwf' : wfNode func = true ∧ wfNode.go args = true ∧
            wfNode.go keywords = true ∧ wfNode.ob starargs = true ∧
            wfNode.ob kwargs = true := by
          have : (wfNode func && wfNode.go args && wfNode.go keywords &&
              wfNode.ob starargs && wfNode.ob kwargs) = true := hwf
          simp [Bool.and_eq_true] at this
          exact ⟨this.1.1.1.1, this.1.1.1.2, this.1.1.2, this.1.2, this.2⟩
        have hbad' : hasUnsupported func = true ∨ hasUnsupported.go args = true ∨
            hasUnsupported.go keywords = true ∨ hasUnsupported.ob starargs = true ∨
            hasUnsupported.ob kwargs = true := by
          have : (hasUnsupported func || hasUnsupported.go args ||
              hasUnsupported.go keywords || hasUnsupported.ob starargs ||
              hasUnsupported.ob kwargs) = true := hbad
          simpa [Bool.or_eq_true, or_assoc] using this
        simp only [visitF] at h
        obtain ⟨s₂, hb, -⟩ := emap_ok h
        obtain ⟨s₃, hf, hrest⟩ := eseq_ok hb
        obtain ⟨s₄, hargs, -⟩ := emap_ok hrest
        rcases hbad' with hx | hrest'
        · exact ihV func _ _ hwf'.1 hx hf
        · have hlist : ∃ x ∈ callArgsList args keywords starargs kwargs,
              wfNode x = true ∧ hasUnsupported x = true := by
            apply callArgsList_bad
            rcases hrest' with ha | hk | hst | hkw
            · obtain ⟨x, hx, hbx⟩ := (hU_go_iff args).mp ha
              exact Or.inl ⟨x, hx, (wf_go_iff args).mp hwf'.2.1 x hx, hbx⟩
            · obtain ⟨x, hx, hbx⟩ := (hU_go_iff keywords).mp hk
              exact Or.inr (Or.inl ⟨x, hx, (wf_go_iff keywords).mp hwf'.2.2.1 x hx, hbx⟩)
            · cases starargs with
              | none => simp [hasUnsupported.ob] at hst
              | some sa =>
                refine Or.inr (Or.inr (Or.inl ⟨sa, rfl, ?_, hst⟩))
                exact hwf'.2.2.2.1
            · cases kwargs with
              | none => simp [hasUnsupported.ob] at hkw
              | some kx =>
                refine Or.inr (Or.inr (Or.inr ⟨kx, rfl, ?_, hkw⟩))
                exact hwf'.2.2.2.2
          split at hargs
          · next hemp =>
              obtain ⟨x, hx, -⟩ := hlist
              rw [List.isEmpty_iff] at hemp
              simp [hemp] at hx
          · exact ihWel _ _ _ _ _ _ _ hlist hargs
      | keyword arg value =>
        simp only [visitF] at h
        obtain ⟨s₂, hb, -⟩ := emap_ok h
        exact ihV value _ _ hwf hbad hb
      | Attribute value attr =>
        simp only [visitF] at h
        obtain ⟨s₂, hb, -⟩ := emap_ok h
        obtain ⟨s₃, hv, -⟩ := emap_ok hb
        exact ihV value _ _ hwf hbad hv
      | Subscript value slice =>
        have hwf' : wfNode value = true ∧ wfNode slice = true := by
          have : (wfNode value && wfNode slice) = true := hwf
          simpa [Bool.and_eq_true] using this
        have hbad' : hasUnsupported value = true ∨ hasUnsupported slice = true := by
          have : (hasUnsupported value || hasUnsupported slice) = true := hbad
          simpa [Bool.or_eq_true] using this
        simp only [visitF] at h
        obtain ⟨s₂, hb, -⟩ := emap_ok h
        obtain ⟨s₃, hv, hg⟩ := eseq_ok hb
        obtain ⟨s₄, hs, -⟩ := emap_ok hg
        rcases hbad' with hx | hx
        · exact ihV value _ _ hwf'.1 hx hv
        · exact ihV slice _ _ hwf'.2 hx hs
      | Index v =>
        simp only [visitF] at h
        obtain ⟨s₂, hb, -⟩ := emap_ok h
        exact ihV v _ _ hwf hbad hb
      | Lambda args body =>
        have hwf' : wfNode args = true ∧ wfNode body = true := by
          have : (wfNode args && wfNode body) = true := hwf
          simpa [Bool.and_eq_true] using this
        have hbad' : hasUnsupported args = true ∨ hasUnsupported body = true := by
          have : (hasUnsupported args || hasUnsupported body) = true := hbad
          simpa [Bool.or_eq_true] using this
        simp only [visitF] at h
        obtain ⟨s₂, hb, -⟩ := emap_ok h
        obtain ⟨s₃, hargs, hg⟩ := eseq_ok hb
        obtain ⟨s₄, hbody, -⟩ := eseq_ok hg
        rcases hbad' with hx | hx
        · exact ihV args _ _ hwf'.1 hx hargs
        · exact ihV body _ _ hwf'.2 hx hbody
      | IfExp t b o =>
        have hwf' : wfNode t = true ∧ wfNode b = true ∧ wfNode o = true := by
          have : (wfNode t && wfNode b && wfNode o) = true := hwf
          simp [Bool.and_eq_true] at this
          exact ⟨this.1.1, this.1.2, this.2⟩
        have hbad' : hasUnsupported t = true ∨ hasUnsupported b = true ∨
            hasUnsupported o = true := by
          have : (hasUnsupported t || hasUnsupported b || hasUnsupported o) = true := hbad
          simpa [Bool.or_eq_true, or_assoc] using this
        simp only [visitF] at h
        obtain ⟨s₂, hb, -⟩ := emap_ok h
        obtain ⟨s₃, hbody, hg⟩ := eseq_ok hb
        obtain ⟨s₄, htest, hg₂⟩ := eseq_ok hg
        obtain ⟨s₅, hor, -⟩ := eseq_ok hg₂
        rcases hbad' with hx | hx | hx
        · exact ihV t _ _ hwf'.1 hx htest
        · exact ihV b _ _ hwf'.2.1 hx hbody
        · exact ihV o _ _ hwf'.2.2 hx hor
      | arguments args defaults vararg kwarg =>
        have hwf' : defaults.length ≤ args.length ∧ wfNode.go args = true ∧
            wfNode.go defaults = true := by
          have : (decide (defaults.length ≤ args.length) && wfNode.go args &&
              wfNode.go defaults) = true := hwf
          simp [Bool.and_eq_true] at this
          exact ⟨this.1.1, this.1.2, this.2⟩
        have hbad' : hasUnsupported.go args = true ∨ hasUnsupported.go defaults = true := by
          have : (hasUnsupported.go args || hasUnsupported.go defaults) = true := hbad
          simpa [Bool.or_eq_true] using this
        have hlist : ∃ x ∈ argumentsList args defaults vararg kwarg,
            wfNode x = true ∧ hasUnsupported x = true := by
          apply argumentsList_bad args defaults vararg kwarg
            ((wf_go_iff args).mp hwf'.2.1) ((wf_go_iff defaults).mp hwf'.2.2) hwf'.1
          rcases hbad' with hx | hx
          · exact Or.inl ((hU_go_iff args).mp hx)
          · exact Or.inr ((hU_go_iff defaults).mp hx)
        simp only [visitF] at h
        obtain ⟨s₂, hb, -⟩ := emap_ok h
        split at hb
        · next hemp =>
            obtain ⟨x, hx, -⟩ := hlist
            rw [List.isEmpty_iff] at hemp
            simp [hemp] at hx
        · exact ihWel _ _ _ _ _ _ _ hlist hb
      | KeywordArg arg value =>
        have hwf' : wfNode arg = true ∧ wfNode value = true := by
          have : (wfNode arg && wfNode value) = true := hwf
          simpa [Bool.and_eq_true] using this
        have hbad' : hasUnsupported arg = true ∨ hasUnsupported value = true := by
          have : (hasUnsupported arg || hasUnsupported value) = true := hbad
          simpa [Bool.or_eq_true] using this
        simp only [visitF] at h
        obtain ⟨s₂, hb, -⟩ := emap_ok h
        obtain ⟨s₃, ha, hv⟩ := eseq_ok hb
        rcases hbad' with hx | hx
        · exact ihV arg _ _ hwf'.1 hx ha
        · exact ihV value _ _ hwf'.2 hx hv
      | StarArg arg =>
        simp only [visitF] at h
        obtain ⟨s₂, hb, -⟩ := emap_ok h
        exact ihV arg _ _ hwf hbad hb
      | DoubleStarArg arg =>
        simp only [visitF] at h
        obtain ⟨s₂, hb, -⟩ := emap_ok h
        exact ihV arg _ _ hwf hbad hb
      | callArgs => simp [visitF, emap] at h
      | unknown desc => simp [visitF, emap] at h
    · -- visitSeqF
      intro l s s' hex h
      obtain ⟨x, hx, hwx, hbx⟩ := hex
      cases l with
      | nil => simp at hx
      | cons n rest =>
        simp only [visitSeqF] at h
        obtain ⟨s₁, hn, hrest⟩ := eseq_ok h
        rcases List.mem_cons.mp hx with rfl | hx'
        · exact ihV x _ _ hwx hbx hn
        · exact ihSeq _ _ _ ⟨x, hx', hwx, hbx⟩ hrest
    · -- decoratorLoopF
      intro l s s' hex h
      obtain ⟨x, hx, hwx, hbx⟩ := hex
      cases l with
      | nil => simp at hx
      | cons d rest =>
        simp only [decoratorLoopF] at h
        obtain ⟨s₁, hd, hrest⟩ := eseq_ok h
        rcases List.mem_cons.mp hx with rfl | hx'
        · exact ihV x _ _ hwx hbx hd
        · exact ihDec _ _ _ ⟨x, hx', hwx, hbx⟩ hrest
    · -- writeSuiteF
      intro l s s' hex h
      simp only [writeSuiteF] at h
      obtain ⟨s₁, hseq, -⟩ := emap_ok h
      exact ihSeq _ _ _ hex hseq
    · -- writeExpressionListF
      intro l sep an np fs s s' hex h
      simp only [writeExpressionListF] at h
      cases hA : welAttemptF cfg f l sep an true s with
      | error e => rw [hA] at h; simp at h
      | ok p =>
        obtain ⟨b, s₁⟩ := p
        rw [hA] at h
        cases b with
        | false =>
          exact ihAtt _ _ _ _ _ _ hex hA
        | true =>
          simp only at h
          exact ihFall _ _ _ _ _ _ hex h
    · -- welFallbackF
      intro l sep np fs s s' hex h
      simp only [welFallbackF] at h
      cases hM : welMultiF cfg f l (rstrip sep) fs
          (add_indentation cfg (write_newline (if np then write "(" s else s))) with
      | error e => rw [hM] at h; simp at h
      | ok s₁ => exact ihMulti _ _ _ _ _ hex hM
    · -- welAttemptF
      intro l sep an fst s s' hex h
      obtain ⟨x, hx, hwx, hbx⟩ := hex
      cases l with
      | nil => simp at hx
      | cons n rest =>
        simp only [welAttemptF] at h
        cases hv : visitF cfg f n (if fst then s else write sep s) with
        | error e => rw [hv] at h; simp at h
        | ok s₁ =>
          rw [hv] at h
          simp only [eseq_ok_simp] at h
          rcases List.mem_cons.mp hx with rfl | hx'
          · exact ihV x _ _ hwx hbx hv
          · split at h
            · obtain hh := Except.ok.inj h
              obtain ⟨hb2, -⟩ := Prod.mk.injEq .. ▸ hh
              simp at hb2
            · exact ihAtt _ _ _ _ _ _ ⟨x, hx', hwx, hbx⟩ h
    · -- welMultiF
      intro l sep fs s s' hex h
      obtain ⟨x, hx, hwx, hbx⟩ := hex
      cases l with
      | nil => simp at hx
      | cons n rest =>
        simp only [welMultiF] at h
        cases hv : visitF cfg f n (write_indentation s) with
        | error e => rw [hv] at h; simp at h
        | ok s₁ =>
          rw [hv] at h
          simp only at h
          rcases List.mem_cons.mp hx with rfl | hx'
          · exact ihV x _ _ hwx hbx hv
          · exact ihMulti _ _ _ _ _ ⟨x, hx', hwx, hbx⟩ h
    · -- compareTailF
      intro l s s' hex h
      obtain ⟨p, hp, hwp, hbp⟩ := hex
      cases l with
      | nil => simp at hp
      | cons q rest =>
        obtain ⟨op, e⟩ := q
        simp only [compareTailF] at h
        obtain ⟨s₁, he, hrest⟩ := eseq_ok h
        rcases List.mem_cons.mp hp with rfl | hp'
        · exact ihV e _ _ hwp hbp he
        · exact ihCmp _ _ _ ⟨p, hp', hwp, hbp⟩ hrest


/-- C7: a node kind without a rendering rule makes the whole unparse fail:
visiting it raises `NotImplementedError` immediately (first conjunct), a
well-formed tree containing such a node is never rendered successfully
(second), `decompile` of such a tree returns an error and no text (third),
checked on a concrete program (fourth). -/
theorem C7_unsupported_node_fails :
    (∀ (cfg : Config) (f : Nat) (desc : String) (s : DState),
      visitF cfg (f+1) (.unknown desc) s =
        .error (.unsupported ("missing visit method for " ++ desc))) ∧
    (∀ (cfg : Config) (f : Nat) (n : Node) (s s' : DState),
      wfNode n = true → hasUnsupported n = true → visitF cfg f n s ≠ .ok s') ∧
    (∀ (tree : Node) (ind ll : Nat), wfNode tree = true → hasUnsupported tree = true →
      ∃ e, decompile tree ind ll = .error e) ∧
    (decompileDefault (.Module [.Expr (.unknown "Yield")]) =
      .error (.unsupported "missing visit method for Yield")) := by
  refine ⟨?_, ?_, ?_, by rfl⟩
  · intro cfg f desc s
    rfl
  · intro cfg f n s s' hwf hbad
    exact (badAll cfg f).1 n s s' hwf hbad
  · intro tree ind ll hwf hbad
    cases hv : visitF { indentation := ind, max_line_length := ll }
        (8 * sizeT tree + 64) tree initState with
    | error e =>
      refine ⟨e, ?_⟩
      show (match visitF { indentation := ind, max_line_length := ll }
          (8 * sizeT tree + 64) tree initState with
        | Except.error e => (Except.error e : Except Err String)
        | Except.ok s => Except.ok (joinStr s.lines)) = Except.error e
      rw [hv]
    | ok s =>
      exact absurd hv ((badAll _ _).1 tree initState s hwf hbad)

/-- The ghost trace of one unparse traversal of `tree`: one entry per
`visit` entry, recording the ancestry-stack length, the `_CallArgs`
sentinel count on the stack, and the recursion depth of `visit` calls at
that moment (empty when the traversal fails). -/
def decompileTrace (tree : Node) (indentation max_line_length : Nat) :
    List (Nat × Nat × Nat) :=
  match visitF { indentation := indentation, max_line_length := max_line_length }
      (8 * sizeT tree + 64) tree initState with
  | .error _ => []
  | .ok s => s.ghost_trace

/-- C5, counterexample: decompiling the module `f(x)` records the trace
`[(1,0,1), (2,0,2), (3,0,3), (4,0,4), (5,1,4)]`; its last entry — the
visit of the argument `x`, made after `visit_Call` has pushed its
`_CallArgs` sentinel onto `node_stack` without a `visit` call — has
ancestry-stack length 5 but recursion depth 4, so the stack length does
not equal the recursion depth at every point. -/
theorem C5_stack_depth_counterexample :
    decompileTrace (.Module [.Expr (.Call (.Name "f") [.Name "x"] [] none none)]) 4 100 =
      [(1, 0, 1), (2, 0, 2), (3, 0, 3), (4, 0, 4), (5, 1, 4)] ∧
    ¬ (∀ e ∈ decompileTrace
          (.Module [.Expr (.Call (.Name "f") [.Name "x"] [] none none)]) 4 100,
        e.1 = e.2.2) :=
  ⟨by decide, by decide⟩

/-- C5, amended: at every `visit` entry of one unparse traversal, the
ancestry-stack length equals the `visit` recursion depth plus the number
of `_CallArgs` sentinels currently on the stack (each active `visit_Call`
contributes one sentinel frame that has no `visit` call of its own). -/
theorem C5_stack_depth_amended (tree : Node) (ind ll : Nat)
    (e : Nat × Nat × Nat)
    (he : e ∈ decompileTrace tree ind ll) : e.1 = e.2.2 + e.2.1 := by
  unfold decompileTrace at he
  cases hv : visitF { indentation := ind, max_line_length := ll }
      (8 * sizeT tree + 64) tree initState with
  | error err => rw [hv] at he; simp at he
  | ok s' =>
    rw [hv] at he
    have hp := (presAll { indentation := ind, max_line_length := ll }
        (8 * sizeT tree + 64)).1 tree initState s' hv
    refine hp.1.2.2.2.2.2.2 ?_ ?_ e he
    · show (0 : Nat) = 0 + 0
      rfl
    · intro x hx
      simp [initState] at hx

/-- The amended C5 invariant, checked at the last trace entry of `f(x)`. -/
theorem C5_stack_depth_amended_witness :
    (5, 1, 4) ∈ decompileTrace
      (.Module [.Expr (.Call (.Name "f") [.Name "x"] [] none none)]) 4 100 ∧
    (5, 1, 4).1 = (5, 1, 4).2.2 + (5, 1, 4).2.1 :=
  ⟨by decide, C5_stack_depth_amended
    (.Module [.Expr (.Call (.Name "f") [.Name "x"] [] none none)]) 4 100
    (5, 1, 4) (by decide)⟩

/-- C8: decompiling is deterministic: two calls on the same tree with the
same configuration arguments produce identical results.  `decompile`
(decompiler.py 75-87) builds a fresh `Decompiler` per call whose state
(`Decompiler.__init__`, decompiler.py 90-98) depends only on the two
configuration arguments, so the output is a function of `(tree,
indentation, line_length)` alone. -/
theorem C8_determinism (t₁ t₂ : Node) (ind₁ ind₂ ll₁ ll₂ : Nat)
    (ht : t₁ = t₂) (hi : ind₁ = ind₂) (hl : ll₁ = ll₂) :
    decompile t₁ ind₁ ll₁ = decompile t₂ ind₂ ll₂ := by
  rw [ht, hi, hl]

/-- Two runs of `decompile` on the module `pass` with the default
configuration agree, and both return `"pass\n"`. -/
theorem C8_determinism_witness :
    decompile (.Module [.Pass]) 4 100 = decompile (.Module [.Pass]) 4 100 ∧
    decompile (.Module [.Pass]) 4 100 = .ok "pass\n" :=
  ⟨C8_determinism (.Module [.Pass]) (.Module [.Pass]) 4 4 100 100 rfl rfl rfl,
    by rfl⟩

/-- `p` is a round-trip partner for the decompiler (tests.py `check`,
lines 12-35): for every well-formed tree built only from supported node
kinds, decompiling succeeds and re-parsing the output yields a tree whose
canonical structural dump equals the input's — in the value semantics of
`Node`, the input tree itself. -/
def RoundTripper (p : String → Option Node) : Prop :=
  ∀ t, wfNode t = true → hasUnsupported t = false →
    ∃ out, decompileDefault t = .ok out ∧ p out = some t

/-- C1: the round-trip property fails: the two structurally distinct
trees `Module[Expr(BinOp(Num -1) Pow (Num 2))]` (parsing of `(-1) ** 2`)
and `Module[Expr(UnaryOp USub (BinOp (Num 1) Pow (Num 2)))]` (parsing of
`-1 ** 2`) are both supported and well-formed, yet both decompile to the
same text `"-1 ** 2\n"` — `visit_BinOp` (decompiler.py 473-492)
parenthesizes the left operand of `**` only when the operand's precedence
is strictly lower, and a negative `Num` literal has maximal precedence —
so no parser whatsoever can map each output back to a tree with the
original's structural dump. -/
theorem C1_roundtrip_collision :
    decompileDefault (.Module [.Expr (.BinOp (.Num (-1)) .Pow (.Num 2))]) =
      .ok "-1 ** 2\n" ∧
    decompileDefault (.Module [.Expr (.UnaryOp .USub
      (.BinOp (.Num 1) .Pow (.Num 2)))]) = .ok "-1 ** 2\n" ∧
    Node.beq (.Module [.Expr (.BinOp (.Num (-1)) .Pow (.Num 2))])
      (.Module [.Expr (.UnaryOp .USub (.BinOp (.Num 1) .Pow (.Num 2)))]) = false ∧
    (wfNode (.Module [.Expr (.BinOp (.Num (-1)) .Pow (.Num 2))]) = true ∧
     hasUnsupported (.Module [.Expr (.BinOp (.Num (-1)) .Pow (.Num 2))]) = false) ∧
    (wfNode (.Module [.Expr (.UnaryOp .USub (.BinOp (.Num 1) .Pow (.Num 2)))]) = true ∧
     hasUnsupported (.Module [.Expr (.UnaryOp .USub
       (.BinOp (.Num 1) .Pow (.Num 2)))]) = false) ∧
    ∀ p : String → Option Node, ¬ RoundTripper p := by
  refine ⟨rfl, rfl, rfl, ⟨rfl, rfl⟩, ⟨rfl, rfl⟩, ?_⟩
  intro p hp
  obtain ⟨out₁, h₁, hr₁⟩ :=
    hp (.Module [.Expr (.BinOp (.Num (-1)) .Pow (.Num 2))]) rfl rfl
  obtain ⟨out₂, h₂, hr₂⟩ :=
    hp (.Module [.Expr (.UnaryOp .USub (.BinOp (.Num 1) .Pow (.Num 2)))]) rfl rfl
  have e₁ : out₁ = "-1 ** 2\n" := by
    have hc : (Except.ok out₁ : Except Err String) = .ok "-1 ** 2\n" := by
      rw [← h₁]; rfl
    exact Except.ok.inj hc
  have e₂ : out₂ = "-1 ** 2\n" := by
    have hc : (Except.ok out₂ : Except Err String) = .ok "-1 ** 2\n" := by
      rw [← h₂]; rfl
    exact Except.ok.inj hc
  rw [e₁] at hr₁
  rw [e₂] at hr₂
  rw [hr₁] at hr₂
  have heq := Option.some.inj hr₂
  have hbeq : Node.beq (.Module [.Expr (.BinOp (.Num (-1)) .Pow (.Num 2))])
      (.Module [.Expr (.UnaryOp .USub (.BinOp (.Num 1) .Pow (.Num 2)))]) = true := by
    rw [heq]
    exact Node.beq_refl _
  have hne : Node.beq (.Module [.Expr (.BinOp (.Num (-1)) .Pow (.Num 2))])
      (.Module [.Expr (.UnaryOp .USub (.BinOp (.Num 1) .Pow (.Num 2)))]) = false := rfl
  rw [hbeq] at hne
  exact absurd hne (by simp)
end AstDecompiler
